import Mathlib

/-!
Shallow embedding of the weave-io query-graph compiler (`weaveio/parser.py`)
together with theorems checking the natural-language specification against it.

Modelling conventions, chosen to mirror the Python/networkx semantics:
* a networkx `DiGraph` is a `Graph`: a list of nodes (each a key together with
  its attribute record, `none` when the node was created implicitly by
  `add_edge` and therefore carries no attributes) plus a list of attributed
  edges, both kept in insertion order, exactly as networkx iterates them;
* node keys in the source are the strings `f"{i}\n{name}\n{path}"` built by
  `make_node`; since the code only ever compares keys for equality, a key is
  modelled as the structure `Label` holding the three components, with the
  `path` component kept as the reachability subgraph it was rendered from
  (the rendering `graph2string` is deterministic, so structural equality of
  components refines Python string equality and agrees with it whenever the
  leading integers differ, which is the case in every run considered here);
* absent edge attributes are `Option.none`; `.get('type', '')` in the source
  becomes `getTy` below, while a bare `['type']` lookup on a missing key is a
  Python `KeyError` and becomes an `Except` error;
* fallible graph operations (`remove_edge`, `remove_node` on missing input)
  return `Option`/`Except` like the networkx exceptions they raise.
-/

/-- Entity-level reachability subgraph stored on every query node (the
`subgraph` node attribute built with a plain `nx.DiGraph` of entity names). -/
structure SubG where
  nodes : List String
  edges : List (String × String)
deriving DecidableEq

/-- Mirrors `DiGraph.add_node` for the entity subgraph: appends the node if
it is not already present. -/
def SubG.addNode (g : SubG) (n : String) : SubG :=
  if n ∈ g.nodes then g else { g with nodes := g.nodes ++ [n] }

/-- Mirrors `DiGraph.add_edge` for the entity subgraph: ensures both
endpoints exist, then appends the edge if new. -/
def SubG.addEdge (g : SubG) (a b : String) : SubG :=
  let g := (g.addNode a).addNode b
  if (a, b) ∈ g.edges then g else { g with edges := g.edges ++ [(a, b)] }

/-- Node key of the query graph: `make_node` builds the Python key string
`f"{i}\n{name}\n{graph2string(subgraph)}"`; the three components are kept
structurally. -/
structure Label where
  i : Nat
  name : String
  path : SubG
deriving DecidableEq

/-- Attribute record attached by `make_node` via
`graph.add_node(label, subgraph=…, scalars=…, _name=…, i=…)`. -/
structure NodeData where
  subgraph : SubG
  scalars : List String
  name : String
  i : Nat
deriving DecidableEq

/-- Edge attribute record; every field is optional because networkx edges
carry whatever keyword arguments were supplied (for example the dependency
edges added by `add_operation` carry no attributes at all). -/
structure EdgeData where
  ty : Option String := none
  label : Option String := none
  operation : Option String := none
  style : Option String := none
deriving DecidableEq, Inhabited

/-- Models the `.get('type', '')` access used by every subgraph filter. -/
def EdgeData.getTy (d : EdgeData) : String := d.ty.getD ""

/-- Python `dict.update` on edge attributes: fields present in the new
record override, absent fields keep the stored value. -/
def EdgeData.update (old new : EdgeData) : EdgeData :=
  { ty := new.ty <|> old.ty
    label := new.label <|> old.label
    operation := new.operation <|> old.operation
    style := new.style <|> old.style }

/-- The mutable query graph (`nx.DiGraph` of `QueryGraph.G`), with node and
edge lists in insertion order. -/
structure Graph where
  nodes : List (Label × Option NodeData)
  edges : List (Label × Label × EdgeData)
deriving DecidableEq

namespace Graph

/-- Membership test on node keys. -/
def hasNode (g : Graph) (l : Label) : Bool := g.nodes.any (fun p => p.1 = l)

/-- Attribute lookup `graph.nodes[l]`; `none` when the node is absent or was
created implicitly without attributes. -/
def dataOf (g : Graph) (l : Label) : Option NodeData :=
  (g.nodes.find? (fun p => p.1 = l)).bind (fun p => p.2)

/-- Number of nodes, `graph.number_of_nodes()`. -/
def numberOfNodes (g : Graph) : Nat := g.nodes.length

/-- `add_node(l, **attrs)`: updates the attribute record in place when the
key already exists, otherwise appends a new node. -/
def addNodeAttrs (g : Graph) (l : Label) (d : NodeData) : Graph :=
  if g.hasNode l then
    { g with nodes := g.nodes.map (fun p => if p.1 = l then (p.1, some d) else p) }
  else
    { g with nodes := g.nodes ++ [(l, some d)] }

/-- Adds the key with no attributes when missing (the implicit node creation
performed by `add_edge` on unknown endpoints). -/
def ensureNode (g : Graph) (l : Label) : Graph :=
  if g.hasNode l then g else { g with nodes := g.nodes ++ [(l, none)] }

/-- Edge attribute lookup `graph.edges[(a, b)]`. -/
def edgeData (g : Graph) (a b : Label) : Option EdgeData :=
  (g.edges.find? (fun e => e.1 = a ∧ e.2.1 = b)).map (fun e => e.2.2)

/-- Edge membership. -/
def hasEdge (g : Graph) (a b : Label) : Bool := (g.edgeData a b).isSome

/-- `add_edge(a, b, **attrs)`: creates missing endpoints, updates the
attribute record of an existing edge, otherwise appends the edge. -/
def addEdge (g : Graph) (a b : Label) (d : EdgeData) : Graph :=
  let g := (g.ensureNode a).ensureNode b
  if g.hasEdge a b then
    { g with edges := g.edges.map (fun e =>
        if e.1 = a ∧ e.2.1 = b then (e.1, e.2.1, e.2.2.update d) else e) }
  else
    { g with edges := g.edges ++ [(a, b, d)] }

/-- Overwrites the attribute record of an existing edge (the in-place dict
mutation `d['label'] = …` performed by `save_state`). -/
def setEdgeData (g : Graph) (a b : Label) (d : EdgeData) : Graph :=
  { g with edges := g.edges.map (fun e =>
      if e.1 = a ∧ e.2.1 = b then (e.1, e.2.1, d) else e) }

/-- `remove_edge`: `none` models the `NetworkXError` raised on a missing
edge. -/
def removeEdge (g : Graph) (a b : Label) : Option Graph :=
  if g.hasEdge a b then
    some { g with edges := g.edges.filter (fun e => ¬(e.1 = a ∧ e.2.1 = b)) }
  else none

/-- `remove_node`: removes the node and all incident edges; `none` models
the `NetworkXError` raised on a missing node. -/
def removeNode (g : Graph) (l : Label) : Option Graph :=
  if g.hasNode l then
    some { nodes := g.nodes.filter (fun p => p.1 ≠ l)
           edges := g.edges.filter (fun e => e.1 ≠ l ∧ e.2.1 ≠ l) }
  else none

/-- `graph.successors(n)` in adjacency (= edge insertion) order. -/
def successors (g : Graph) (n : Label) : List Label :=
  (g.edges.filter (fun e => e.1 = n)).map (fun e => e.2.1)

/-- `graph.predecessors(n)` in adjacency order. -/
def predecessors (g : Graph) (n : Label) : List Label :=
  (g.edges.filter (fun e => e.2.1 = n)).map (fun e => e.1)

/-- `graph.out_edges(n)` with data. -/
def outEdges (g : Graph) (n : Label) : List (Label × Label × EdgeData) :=
  g.edges.filter (fun e => e.1 = n)

/-- `graph.in_edges(n)` with data. -/
def inEdges (g : Graph) (n : Label) : List (Label × Label × EdgeData) :=
  g.edges.filter (fun e => e.2.1 = n)

/-- In-degree plus out-degree of a node (used by `add_unwind`). -/
def degree (g : Graph) (n : Label) : Nat :=
  (g.inEdges n).length + (g.outEdges n).length

end Graph

/-- The empty query graph. -/
def Graph.empty : Graph := { nodes := [], edges := [] }

/-- Error outcomes of the Python code: `KeyError` on a missing dict key,
`NetworkXError` from `remove_edge` / `remove_node`, `NetworkXUnfeasible`
raised by `traverse_query_graph`, `NetworkXNoPath` from `shortest_path`,
`ValueError` from `preserve_state_for_subqueries`, `IndexError` on list
indexing, plus fuel exhaustion of the bounded interpreter. -/
inductive PyErr where
  | keyError
  | networkXError
  | unfeasible
  | noPath
  | valueError
  | indexError
  | outOfFuel
deriving DecidableEq

deriving instance DecidableEq for Except

/-- Source `make_node`: computes the identity `i = graph.number_of_nodes()`,
builds the key from `i`, the display name and the subgraph path, stores the
attribute record, and (when a parent is given) adds the edge
`parent → new` carrying `type`, `label = f"{type}-{operation}"` and
`operation`. -/
def make_node (g : Graph) (parent : Option Label) (subgraph : SubG)
    (scalars : List String) (name ty operation : String) : Graph × Label :=
  let i := g.numberOfNodes
  let lab : Label := ⟨i, name, subgraph⟩
  let g := g.addNodeAttrs lab ⟨subgraph, scalars, name, i⟩
  match parent with
  | none => (g, lab)
  | some p =>
      (g.addEdge p lab ⟨some ty, some (ty ++ "-" ++ operation), some operation, none⟩, lab)

/-- Source `add_start`: a fresh single-entity subgraph and a parentless
node. -/
def add_start (g : Graph) (name : String) : Graph × Label :=
  make_node g none ⟨[name], []⟩ [] name "" ""

/-- Source `add_traversal`: copies the parent's subgraph, extends it along
`path`, and creates a traversal node; `none` models the `KeyError` on a
parent without attributes and the `IndexError` on an empty path. -/
def add_traversal (g : Graph) (parent : Label) (path : List String) :
    Option (Graph × Label) := do
  let pd ← g.dataOf parent
  let p0 ← path.head?
  let subgraph := (path.zip (path.drop 1)).foldl
    (fun sg ab => sg.addEdge ab.1 ab.2) (pd.subgraph.addEdge pd.name p0)
  let cypher := "OPTIONAL MATCH " ++ String.intercalate "," path
  some (make_node g (some parent) subgraph [] ((path.drop (path.length - 1)).foldl
    (fun a b => a ++ b) "") "traversal" cypher)

/-- Source `add_filter`: filter node named after the parent, plus one
`type='dep'` edge per dependency (dependencies may be arbitrary keys:
networkx creates missing endpoints implicitly). -/
def add_filter (g : Graph) (parent : Label) (dependencies : List Label)
    (operation : String) : Option (Graph × Label) := do
  let pd ← g.dataOf parent
  let (g, n) := make_node g (some parent) pd.subgraph [] pd.name "filter"
    ("WHERE " ++ operation)
  some (dependencies.foldl (fun acc d =>
    acc.addEdge d n ⟨some "dep", none, none, none⟩) g, n)

/-- Source `add_aggregation`: new node carrying the scope anchor's subgraph
and the parent's scalars extended by the operation, plus the dashed
`type='wrt'` edge back to the anchor.  No ancestry check is performed. -/
def add_aggregation (g : Graph) (parent wrt : Label) (operation : String)
    (ty : String := "aggr") : Option (Graph × Label) := do
  let wd ← g.dataOf wrt
  let pd ← g.dataOf parent
  let (g, n) := make_node g (some parent) wd.subgraph (pd.scalars ++ [operation])
    operation ty operation
  some (g.addEdge n wrt ⟨some "wrt", none, none, some "dashed"⟩, n)

/-- Source `add_operation`: operation node chaining the parent's scalars,
plus one attribute-less edge per dependency. -/
def add_operation (g : Graph) (parent : Label) (dependencies : List Label)
    (operation : String) : Option (Graph × Label) := do
  let pd ← g.dataOf parent
  let (g, n) := make_node g (some parent) pd.subgraph (pd.scalars ++ [operation])
    operation "operation" ("WITH *, " ++ operation ++ " as ...")
  some (dependencies.foldl (fun acc d => acc.addEdge d n default) g, n)

/-- `QueryGraph.__init__`: an empty graph holding only the start node
`'data'`. -/
def QueryGraph.fresh : Graph × Label := add_start Graph.empty "data"

/-- Bounded breadth-first closure along `step`; the fuel is always
instantiated generously enough (one unit per edge plus slack) that the
closure is exact on the graphs it is applied to. -/
def reachAux (step : Label → List Label) :
    Nat → List Label → List Label → List Label
  | 0, _, visited => visited
  | _ + 1, [], visited => visited
  | fuel + 1, x :: rest, visited =>
      if x ∈ visited then reachAux step fuel rest visited
      else reachAux step fuel (rest ++ step x) (visited ++ [x])

/-- Nodes reachable from `n` (including `n` itself when present). -/
def reachFrom (g : Graph) (n : Label) : List Label :=
  reachAux (g.successors) ((g.edges.length + 2) * (g.nodes.length + 2)) [n] []

/-- Nodes from which `n` is reachable (including `n` itself). -/
def reachTo (g : Graph) (n : Label) : List Label :=
  reachAux (g.predecessors) ((g.edges.length + 2) * (g.nodes.length + 2)) [n] []

/-- `nx.ancestors(g, n)`: all nodes with a path to `n`, excluding `n`. -/
def ancestors (g : Graph) (n : Label) : List Label :=
  (reachTo g n).filter (fun m => m ≠ n)

/-- `nx.has_path(g, a, b)` as a Boolean (false instead of `NodeNotFound`
when either endpoint is missing). -/
def hasPathB (g : Graph) (a b : Label) : Bool :=
  g.hasNode a && g.hasNode b && (reachFrom g a).any (fun m => m = b)

/-- Boolean ancestor test used when stating the builder's (unchecked)
aggregation precondition. -/
def isAncestorB (g : Graph) (anc desc : Label) : Bool :=
  (ancestors g desc).any (fun m => m = anc)

/-- Convenience for concrete constructions: unwraps a builder result that is
known to succeed. -/
def orDefault (x : Option (Graph × Label)) : Graph × Label :=
  x.getD (Graph.empty, ⟨0, "", ⟨[], []⟩⟩)

/-- Every node's stored identity is below the node count (holds for every
graph actually produced by the builder, restored only while no node has
been removed). -/
def NodesBounded (g : Graph) : Prop := ∀ p ∈ g.nodes, p.1.i < g.numberOfNodes

/-- Both endpoints of every edge are nodes of the graph (an invariant of
every networkx graph). -/
def EdgesValid (g : Graph) : Prop :=
  ∀ e ∈ g.edges, g.hasNode e.1 = true ∧ g.hasNode e.2.1 = true

instance (g : Graph) : Decidable (NodesBounded g) := by
  unfold NodesBounded; infer_instance

instance (g : Graph) : Decidable (EdgesValid g) := by
  unfold EdgesValid; infer_instance

/-- Node-filtered view `nx.subgraph_view(g, filter_node=p)`: hides the
rejected nodes and every incident edge. -/
def Graph.filterNodes (g : Graph) (p : Label → Bool) : Graph :=
  { nodes := g.nodes.filter (fun q => p q.1)
    edges := g.edges.filter (fun e => p e.1 && p e.2.1) }

/-- Edge-filtered view `nx.subgraph_view(g, filter_edge=p)`. -/
def Graph.filterEdges (g : Graph) (p : Label × Label × EdgeData → Bool) : Graph :=
  { nodes := g.nodes, edges := g.edges.filter p }

/-- Lazy dependency view: edges whose `type` differs from `'wrt'` (the
`dag` of `preserve_state_for_subqueries` and of `QueryGraph.parse`). -/
def dagView (g : Graph) : Graph := g.filterEdges (fun e => e.2.2.getTy ≠ "wrt")

/-- Lazy scope view: only the `'wrt'` edges. -/
def wrtView (g : Graph) : Graph := g.filterEdges (fun e => e.2.2.getTy = "wrt")

/-- Association-list read of the in-degree bookkeeping of Kahn's
algorithm. -/
def alGet (al : List (Label × Nat)) (k : Label) : Nat :=
  ((al.find? (fun p => p.1 = k)).map (fun p => p.2)).getD 0

/-- Association-list write for the same bookkeeping. -/
def alSet (al : List (Label × Nat)) (k : Label) (v : Nat) : List (Label × Nat) :=
  al.map (fun p => if p.1 = k then (k, v) else p)

/-- Work loop of `nx.topological_sort` (the Kahn variant with a
last-in-first-out `zero_indegree` stack used by the networkx release the
repository targets); the stack is kept head-topmost. -/
def topoAux (succ : Label → List Label) :
    Nat → List (Label × Nat) → List Label → List Label → List Label
  | 0, _, _, acc => acc
  | _ + 1, _, [], acc => acc
  | fuel + 1, indeg, n :: rest, acc =>
      let next := (succ n).foldl
        (fun (st : List (Label × Nat) × List Label) c =>
          let d := alGet st.1 c - 1
          (alSet st.1 c d, if d = 0 then st.2 ++ [c] else st.2))
        (indeg, [])
      topoAux succ fuel next.1 (next.2.reverse ++ rest) (acc ++ [n])

/-- `nx.topological_sort` on a DAG view (returns a partial order-respecting
prefix when fed a cyclic graph, where networkx would raise). -/
def topological_sort (g : Graph) : List Label :=
  let indeg := g.nodes.map (fun p => (p.1, (g.predecessors p.1).length))
  let zeros := (g.nodes.filter (fun p => (g.predecessors p.1).length = 0)).map
    (fun p => p.1)
  topoAux (g.successors) (2 * g.nodes.length + 2) indeg zeros.reverse []

/-- `any(n in dag2 for n in dag1)`: do the two branch lists share a
node? -/
def sharesNode (dag1 dag2 : List Label) : Bool :=
  dag1.any (fun n => dag2.any (fun m => m = n))

/-- Source `compare_two_dags` (the function wrapped by `cmp_to_key`):
`+1` when the first list shares a node with the second, `-1` when only the
converse holds (never, sharing being symmetric), else `0`. -/
def compare_two_dags (dag1 dag2 : List Label) : Int :=
  if sharesNode dag1 dag2 then 1
  else if sharesNode dag2 dag1 then -1
  else 0

/-- Stable insertion step used to model Python's stable `list.sort`, which
compares with the key class's less-than only. -/
def pyInsert (lt : α → α → Bool) (x : α) : List α → List α
  | [] => [x]
  | y :: ys => if lt x y then x :: y :: ys else y :: pyInsert lt x ys

/-- Stable sort modelling `branches.sort(key=cmp_to_key(c))`; agrees with
Python's sort whenever the comparison lets Python treat the input as
already ordered (the only situation exercised here, `c` never being
negative). -/
def pySort (lt : α → α → Bool) (l : List α) : List α :=
  l.foldl (fun acc x => pyInsert lt x acc) []

/-- The strict comparison `cmp_to_key(compare_two_dags).__lt__`. -/
def cmpDagsLt (d1 d2 : List Label) : Bool := compare_two_dags d1 d2 < 0

/-- The branch computed by `get_branches` for one aggregation node `A`
scoped to `parent`: the topological sort of
`ancestors(A) − ancestors(parent)` with its first element dropped (`[1:]`
in the source), then `[A, parent]` appended. -/
def branchFor (dag : Graph) (parent A : Label) : List Label :=
  let aggAncestors := ancestors dag A
  let nodeAncestors := ancestors dag parent
  let subDag := dag.filterNodes (fun n =>
    aggAncestors.any (fun m => m = n) && !(nodeAncestors.any (fun m => m = n)))
  (topological_sort subDag).drop 1 ++ [A, parent]

/-- Scan behind the `unwound` flag of `get_branches`: lazily evaluated
`any(i[-1]['type'] == 'unwind' …)` over the dependency in-edges, raising
`KeyError` on an attribute-less edge reached before a hit. -/
def unwoundScan : List (Label × Label × EdgeData) → Except PyErr Bool
  | [] => .ok false
  | e :: rest =>
      match e.2.2.ty with
      | none => .error .keyError
      | some t => if t = "unwind" then .ok true else unwoundScan rest

/-- Source `get_branches`: one branch per `'wrt'` predecessor of `parent`,
sorted with `compare_two_dags`, paired with the checkpoint flag. -/
def get_branches (dag backwards : Graph) (parent : Label) :
    Except PyErr (List (List Label) × Bool) :=
  let branches := (backwards.predecessors parent).map (branchFor dag parent)
  let branches := pySort cmpDagsLt branches
  match unwoundScan (dag.inEdges parent) with
  | .error e => .error e
  | .ok b => .ok (branches, !b)

/-- Breadth-first search queue step behind `nx.shortest_path`; each queue
entry carries its node and the reversed path that reached it.  (networkx
uses a bidirectional search; when several shortest paths exist the one
returned may differ, and no theorem below depends on the choice — the
source itself asserts "only one path exists".) -/
def bfsAux (succ : Label → List Label) (target : Label) :
    Nat → List (Label × List Label) → List Label → Option (List Label)
  | 0, _, _ => none
  | _ + 1, [], _ => none
  | fuel + 1, (cur, rev) :: queue, visited =>
      if cur = target then some rev.reverse
      else if cur ∈ visited then bfsAux succ target fuel queue visited
      else bfsAux succ target fuel
        (queue ++ (succ cur).map (fun s => (s, s :: rev))) (visited ++ [cur])

/-- `nx.shortest_path(g, a, b)` (unweighted); `none` models
`NetworkXNoPath` / `NodeNotFound`. -/
def shortest_path (g : Graph) (a b : Label) : Option (List Label) :=
  if g.hasNode a ∧ g.hasNode b then
    bfsAux g.successors b ((g.edges.length + 2) * (g.nodes.length + 2)) [(a, [a])] []
  else none

/-- Walk of `zip(path_backwards[:-1], path_backwards[1:])` looking for the
first `'traversal'` edge; exhaustion is the source's
`ValueError("Fatal error: BUG: No part of this branch contains a
traversal")`, a missing edge or `type` key a `KeyError`. -/
def findTraversalAnchor (g : Graph) : List Label → Except PyErr Label
  | b :: wrt :: rest =>
      match g.edgeData wrt b with
      | none => .error .keyError
      | some d =>
          match d.ty with
          | none => .error .keyError
          | some t =>
              if t = "traversal" then .ok wrt else findTraversalAnchor g (wrt :: rest)
  | _ => .error .valueError

/-- The out-edge re-attachment loop of `preserve_state_for_subqueries`:
every outgoing edge of `node` except the one to the new checkpoint is
copied onto `unwound` (same attribute record) and removed from `node`. -/
def moveOutEdges (aggregated unwound node : Label) :
    Graph → List (Label × Label × EdgeData) → Except PyErr Graph
  | g, [] => .ok g
  | g, e :: rest =>
      if e.2.1 ≠ aggregated then
        match g.edgeData node e.2.1 with
        | none => .error .keyError
        | some d =>
            match (g.addEdge unwound e.2.1 d).removeEdge node e.2.1 with
            | none => .error .networkXError
            | some g' => moveOutEdges aggregated unwound node g' rest
      else moveOutEdges aggregated unwound node g rest

/-- The `'wrt'` in-edge re-attachment loop of
`preserve_state_for_subqueries`: every scope edge pointing into `node` is
re-pointed into `unwound`. -/
def moveWrtInEdges (unwound node : Label) :
    Graph → List (Label × Label × EdgeData) → Except PyErr Graph
  | g, [] => .ok g
  | g, e :: rest =>
      match g.edgeData e.1 node with
      | none => .error .keyError
      | some d =>
          match (g.addEdge e.1 unwound d).removeEdge e.1 node with
          | none => .error .networkXError
          | some g' => moveWrtInEdges unwound node g' rest

/-- Source `preserve_state_for_subqueries`: finds the nearest traversal
anchor on the unique dependency path from `start` to `node`, checkpoints
the whole row with a `'pre-subquery'` aggregation scoped to that anchor,
inserts the unwind node after the checkpoint, then re-attaches `node`'s
outgoing edges and incoming `'wrt'` edges to the unwind node. -/
def preserve_state_for_subqueries (g : Graph) (start node : Label) :
    Except PyErr (Graph × Label × Label) :=
  match shortest_path (dagView g) start node with
  | none => .error .noPath
  | some path =>
      match findTraversalAnchor g path.reverse with
      | .error e => .error e
      | .ok wrt =>
          match add_aggregation g node wrt "collect()" "pre-subquery" with
          | none => .error .keyError
          | some (g1, aggregated) =>
              match g1.dataOf node with
              | none => .error .keyError
              | some nd =>
                  let (g2, unwound) :=
                    make_node g1 (some aggregated) nd.subgraph [] "unwind" "unwind" "unwind"
                  match moveOutEdges aggregated unwound node g2 (g2.outEdges node) with
                  | .error e => .error e
                  | .ok g3 =>
                      match moveWrtInEdges unwound node g3 ((wrtView g3).inEdges node) with
                      | .error e => .error e
                      | .ok g4 => .ok (g4, aggregated, unwound)

/-- View descriptor for the custom `subgraph_view` of the source.  The
excluded node and edge lists are materialized at view-construction time
(list comprehensions over the then-current graph), while the `path_to`
node filter is a lambda re-evaluated against the parent view's current
state, exactly as `nx.restricted_view` plus `nx.subgraph_view` behave on a
mutating base graph. -/
inductive GView where
  | base : GView
  | restrict (parent : GView) (exN : List Label) (exE : List (Label × Label))
      (pathTo : Option Label) : GView
deriving DecidableEq

/-- Evaluates a view stack against the current state of the underlying
graph. -/
def evalView (og : Graph) : GView → Graph
  | .base => og
  | .restrict p exN exE pathTo =>
      let pg := evalView og p
      let r : Graph :=
        { nodes := pg.nodes.filter (fun q => decide (q.1 ∉ exN))
          edges := pg.edges.filter (fun e =>
            decide (e.1 ∉ exN) && decide (e.2.1 ∉ exN) && decide ((e.1, e.2.1) ∉ exE)) }
      match pathTo with
      | none => r
      | some t => r.filterNodes (fun n => hasPathB pg n t)

/-- Source `subgraph_view(graph, excluded_edge_type, only_edge_type,
only_nodes, excluded_edges, path_to)`: materializes the exclusion lists
from the view's current evaluation and pushes one `GView` layer. -/
def mkSubgraphView (og : Graph) (v : GView) (excludedEdgeType onlyEdgeType : Option String)
    (onlyNodes : Option (List Label)) (excludedEdges : List (Label × Label))
    (pathTo : Option Label) : GView :=
  let gcur := evalView og v
  let exE1 :=
    match excludedEdgeType with
    | some t => (gcur.edges.filter (fun e => e.2.2.getTy = t)).map (fun e => (e.1, e.2.1))
    | none => []
  let exE2 :=
    match onlyEdgeType with
    | some t => (gcur.edges.filter (fun e => e.2.2.getTy ≠ t)).map (fun e => (e.1, e.2.1))
    | none => []
  let exN :=
    match onlyNodes with
    | some keep => (gcur.nodes.map (fun p => p.1)).filter (fun n => decide (n ∉ keep))
    | none => []
  .restrict v exN (excludedEdges ++ exE1 ++ exE2) pathTo

/-- Lazy scan behind `has_outside_dependencies`: first successor of `node`
reached through a non-`'load-state'` edge and lying outside the view
yields `true`; a type-less edge reached before that is a `KeyError`. -/
def hodScan (superG G : Graph) (node : Label) : List Label → Except PyErr Bool
  | [] => .ok false
  | s :: rest =>
      match superG.edgeData node s with
      | none => .error .keyError
      | some d =>
          match d.ty with
          | none => .error .keyError
          | some t =>
              if t ≠ "load-state" ∧ G.hasNode s = false then .ok true
              else hodScan superG G node rest

/-- Source `has_outside_dependencies(super_graph, graph, node)`. -/
def has_outside_dependencies (superG G : Graph) (node : Label) : Except PyErr Bool :=
  hodScan superG G node (superG.successors node)

/-- Per-successor body of the `save_state` loop: a fresh `load-state` node
re-parented under `wrt` takes over each outgoing edge of `node` other than
the one to the new aggregation. -/
def saveLoop (wrt node aggregated : Label) (d : EdgeData) :
    Graph → List Label → Except PyErr (Graph × Label)
  | g, [] => .ok (g, aggregated)
  | g, s :: rest =>
      if s ≠ aggregated then
        match g.dataOf node with
        | none => .error .keyError
        | some nd =>
            match make_node g (some wrt) nd.subgraph []
                (d.label.getD "") (d.ty.getD "") (d.operation.getD "") with
            | (g1, loaded) =>
                match g1.edgeData node s with
                | none => .error .keyError
                | some ed =>
                    match (g1.addEdge loaded s ed).removeEdge node s with
                    | none => .error .networkXError
                    | some g' => saveLoop wrt node aggregated d g' rest
      else saveLoop wrt node aggregated d g rest

/-- Source `save_state(graph, wrt, node)`: collects `node` into a
`'save-state'` aggregation scoped to `wrt`, rewrites the `wrt → node` edge
in place into a `'load-state'` edge, and hands each remaining consumer of
`node` its own freshly loaded copy. -/
def save_state (g : Graph) (wrt node : Label) : Except PyErr (Graph × Label) :=
  match add_aggregation g node wrt "save-state" "save-state" with
  | none => .error .keyError
  | some (g1, aggregated) =>
      match g1.edgeData wrt node with
      | none => .error .keyError
      | some d0 =>
          match g1.dataOf node with
          | none => .error .keyError
          | some nd =>
              let d : EdgeData :=
                { d0 with label := some ("load-state " ++ nd.name)
                          ty := some "load-state", operation := some "load-state" }
              let g2 := g1.setEdgeData wrt node d
              saveLoop wrt node aggregated d g2 (g2.successors node)

/-- One emitted fragment, the value of `get_statement_data`: the two node
attribute records (`none` for an implicitly created, attribute-less node),
the edge record, and the `is_aggregating` flag. -/
abbrev Stmt := Option NodeData × Option NodeData × EdgeData × Bool

instance : DecidableEq Stmt := inferInstance

/-- Source `get_statement_data(graph, a, b, is_aggregating)`; `none` models
the `KeyError` on a missing node or edge. -/
def get_statement_data (g : Graph) (a b : Label) (isAggregating : Bool) : Option Stmt :=
  if g.hasNode a ∧ g.hasNode b then
    match g.edgeData a b with
    | none => none
    | some d =>
        some ((g.nodes.find? (fun p => p.1 = a)).bind (fun p => p.2),
              (g.nodes.find? (fun p => p.1 = b)).bind (fun p => p.2), d, isAggregating)
  else none

/-- Line 511 of the source: the successor list is the `'wrt'` successors
followed by the dependency successors, and the compiler always takes the
first element. -/
def successorsOf (backwards dag : Graph) (node : Label) : List Label :=
  backwards.successors node ++ dag.successors node

/-- Outcome of one body execution of the `while G.edges` loop of
`traverse_query_graph`: stop with a result or error, recurse into a
branch, or emit one statement and advance. -/
inductive StepOut where
  | halt (r : Except PyErr (List Stmt × Graph)) : StepOut
  | intoBranch (subGv subDag subBack : GView) (A lastN : Label) : StepOut
  | advance (stmt : Stmt) (og : Graph) (Gv dagV backV : GView) (succ : Label) : StepOut

/-- First half of the post-emission bookkeeping of the advance step
(source lines 516-522): on an aggregating walk whose successor is not the
output and still has outside dependencies, save the state and rebuild the
three views. -/
def travSaveState (og : Graph) (Gv dagV backV : GView) (start output successor : Label)
    (agg : Bool) : Except PyErr (Graph × GView × GView × GView) :=
  if agg ∧ successor ≠ output then
    match has_outside_dependencies og (evalView og Gv) successor with
    | .error e => .error e
    | .ok true =>
        match save_state og start successor with
        | .error e => .error e
        | .ok (og1, _) =>
            let Gv' := mkSubgraphView og1 Gv none none none [] (some output)
            let dagV' := mkSubgraphView og1 Gv' (some "wrt") none none [] none
            let backV' := mkSubgraphView og1 Gv' none (some "wrt") none [] none
            .ok (og1, Gv', dagV', backV')
    | .ok false => .ok (og, Gv, dagV, backV)
  else .ok (og, Gv, dagV, backV)

/-- Second half of the advance bookkeeping: consume the emitted edge
(`original_graph.remove_edge(node, successor)`). -/
def travAdvance (og : Graph) (Gv dagV backV : GView) (start output node successor : Label)
    (agg : Bool) : Except PyErr (Graph × GView × GView × GView) :=
  match travSaveState og Gv dagV backV start output successor agg with
  | .error e => .error e
  | .ok (og1, Gv', dagV', backV') =>
      match og1.removeEdge node successor with
      | none => .error .networkXError
      | some og2 => .ok (og2, Gv', dagV', backV')

/-- One body execution of the `while G.edges` loop of
`traverse_query_graph`, faithful to the source order: loop condition,
branch lookup, the fatal >1-unaggregated-successors check, then successor
selection and emission. -/
def travStep (og : Graph) (Gv dagV backV : GView) (start output node : Label)
    (agg : Bool) : StepOut :=
  let Gg := evalView og Gv
  if Gg.edges = [] then .halt (.ok ([], og))
  else
    match get_branches (evalView og dagV) (evalView og backV) node with
    | .error e => .halt (.error e)
    | .ok (branches, _) =>
        match branches with
        | branch :: _ =>
            if h : 2 ≤ branch.length then
              let A := branch.get ⟨branch.length - 2, by omega⟩
              let lastN := branch.get ⟨branch.length - 1, by omega⟩
              let subGv := mkSubgraphView og Gv none none (some branch) [(A, node)] (some A)
              let subDag := mkSubgraphView og subGv (some "wrt") none none [] none
              let subBack := mkSubgraphView og subGv none (some "wrt") none [] none
              .intoBranch subGv subDag subBack A lastN
            else .halt (.error .indexError)
        | [] =>
            let noLoad := mkSubgraphView og dagV (some "load-state") none none [] none
            if 1 < ((evalView og noLoad).successors node).length then
              .halt (.error .unfeasible)
            else
              match successorsOf (evalView og backV) (evalView og dagV) node with
              | [] => .halt (.ok ([], og))
              | successor :: _ =>
                  match get_statement_data Gg node successor agg with
                  | none => .halt (.error .keyError)
                  | some stmt =>
                      match travAdvance og Gv dagV backV start output node successor agg with
                      | .error e => .halt (.error e)
                      | .ok (og', Gv', dagV', backV') =>
                          .advance stmt og' Gv' dagV' backV' successor

/-- Fuel-bounded driver of the compiler loop; the recursion into a branch
passes the current working graph (the recursion "may edit the graph"), and
on return the consumed `'wrt'` edge and the aggregation node are removed
from it. -/
def travLoop :
    Nat → Graph → GView → GView → GView → Label → Label → Label → Bool →
    Except PyErr (List Stmt × Graph)
  | 0, _, _, _, _, _, _, _, _ => .error .outOfFuel
  | fuel + 1, og, Gv, dagV, backV, start, output, node, agg =>
      match travStep og Gv dagV backV start output node agg with
      | .halt r => r
      | .intoBranch subGv subDag subBack A lastN =>
          match travLoop fuel og subGv subDag subBack node A node true with
          | .error e => .error e
          | .ok (sts1, og1) =>
              match og1.removeEdge A lastN with
              | none => .error .networkXError
              | some og2 =>
                  match og2.removeNode A with
                  | none => .error .networkXError
                  | some og3 =>
                      match travLoop fuel og3 Gv dagV backV start output node agg with
                      | .error e => .error e
                      | .ok (sts2, og4) => .ok (sts1 ++ sts2, og4)
      | .advance stmt og' Gv' dagV' backV' succ =>
          match travLoop fuel og' Gv' dagV' backV' start output succ agg with
          | .error e => .error e
          | .ok (sts, og'') => .ok (stmt :: sts, og'')

/-- Source `traverse_query_graph(G, output, node)` called from the outside
(`original_graph is None`): the function first takes a private copy
(`original_graph = G.copy()`), wraps it in a filterless view, builds the
`'wrt'`-split views, and runs the loop with `start = node` and
`aggregating = False`.  Every mutation in the body targets the copy, so
the triple returned is (emitted statements, final state of the working
copy, the caller's graph after the call — which is the unchanged input). -/
def traverse_query_graph (G : Graph) (output node : Label) (fuel : Nat) :
    Except PyErr (List Stmt × Graph × Graph) :=
  let og := G
  let Gv : GView := .restrict .base [] [] none
  let dagV := mkSubgraphView og Gv (some "wrt") none none [] none
  let backV := mkSubgraphView og Gv none (some "wrt") none [] none
  match travLoop fuel og Gv dagV backV node output node false with
  | .error e => .error e
  | .ok (sts, og') => .ok (sts, og', G)

/-- One Graph Builder call, with all node arguments explicit (the labels a
front-end would have received from earlier calls). -/
inductive BOp where
  | trav (parent : Label) (path : List String) : BOp
  | filt (parent : Label) (deps : List Label) (operation : String) : BOp
  | aggr (parent wrt : Label) (operation : String) : BOp
  | oper (parent : Label) (deps : List Label) (operation : String) : BOp
deriving DecidableEq

/-- Applies one builder call; a call that raises before mutating (missing
parent attributes, empty path) leaves the graph unchanged, matching the
source where every attribute read precedes the first mutation. -/
def applyOp (g : Graph) : BOp → Graph
  | .trav p path => ((add_traversal g p path).getD (g, p)).1
  | .filt p deps op => ((add_filter g p deps op).getD (g, p)).1
  | .aggr p w op => ((add_aggregation g p w op).getD (g, p)).1
  | .oper p deps op => ((add_operation g p deps op).getD (g, p)).1

/-- A sequence of builder calls. -/
def applyOps (g : Graph) (ops : List BOp) : Graph := ops.foldl applyOp g

/-- A call is valid when every node argument denotes an existing node (and
the parent one with attributes), so that no implicit attribute-less node is
ever created. -/
def validOp (g : Graph) : BOp → Bool
  | .trav p path => (g.dataOf p).isSome && !path.isEmpty
  | .filt p deps _ => (g.dataOf p).isSome && deps.all (fun d => g.hasNode d)
  | .aggr p w _ => (g.dataOf p).isSome && (g.dataOf w).isSome
  | .oper p deps _ => (g.dataOf p).isSome && deps.all (fun d => g.hasNode d)

/-- Validity of a whole call sequence, each call judged against the graph
it actually sees. -/
def validOps : Graph → List BOp → Bool
  | _, [] => true
  | g, op :: rest => validOp g op && validOps (applyOp g op) rest

/-- The node list carries, from position `n` on, labels and attribute
records whose identity equals the position (the state of a builder-only
graph: identities are exactly `0, 1, 2, …` in insertion order). -/
def NodesIndexedFrom : Nat → List (Label × Option NodeData) → Prop
  | _, [] => True
  | n, (l, od) :: rest =>
      l.i = n ∧ (∃ d, od = some d ∧ d.i = n) ∧ NodesIndexedFrom (n + 1) rest

/-- Top-level form of the previous predicate. -/
def NodesIndexed (g : Graph) : Prop := NodesIndexedFrom 0 g.nodes

/-- Every non-`'wrt'` edge strictly increases the node identity — the
ranking that makes the dependency graph acyclic. -/
def EdgeMono (g : Graph) : Prop :=
  ∀ e ∈ g.edges, e.2.2.getTy ≠ "wrt" → e.1.i < e.2.1.i

/-- Edge keys (source, target) are pairwise distinct, as networkx
guarantees. -/
def EdgesNodup (g : Graph) : Prop :=
  g.edges.Pairwise (fun e1 e2 => (e1.1, e1.2.1) ≠ (e2.1, e2.2.1))

instance (g : Graph) : Decidable (EdgesNodup g) := by
  unfold EdgesNodup
  infer_instance

/-- A non-empty path along dependency (non-`'wrt'`) edges. -/
inductive DepPath (g : Graph) : Label → Label → Prop where
  | single {a b : Label} {d : EdgeData} :
      (a, b, d) ∈ g.edges → d.getTy ≠ "wrt" → DepPath g a b
  | cons {a b c : Label} {d : EdgeData} :
      (a, b, d) ∈ g.edges → d.getTy ≠ "wrt" → DepPath g b c → DepPath g a c

/-- The integer identities of all attribute-carrying nodes, in node
order. -/
def builtIdentities (g : Graph) : List Nat :=
  g.nodes.filterMap (fun p => p.2.map (fun d => d.i))

/-- Claim-side rendering of the Branch Resolver's branch, following the
spec's words: the set difference `ancestors(A) − ancestors(N)` listed in
the topological order the implementation uses, with `[A, N]` appended (and,
unlike the source, nothing dropped). -/
def branchSpec (dag : Graph) (parent A : Label) : List Label :=
  let aggAncestors := ancestors dag A
  let nodeAncestors := ancestors dag parent
  let subDag := dag.filterNodes (fun n =>
    aggAncestors.any (fun m => m = n) && !(nodeAncestors.any (fun m => m = n)))
  topological_sort subDag ++ [A, parent]

/-- Concrete graphs: two sibling traversals below the start node. -/
def sib0 : Graph × Label := QueryGraph.fresh

/-- First sibling `data → OB`. -/
def sibA : Graph × Label := orDefault (add_traversal sib0.1 sib0.2 ["OB"])

/-- Second sibling `data → weather`, added next to the first. -/
def sibB : Graph × Label := orDefault (add_traversal sibA.1 sib0.2 ["weather"])

/-- Chain with an aggregation: `data → OB → run`, then
`count` aggregated from the run node back to the OB node. -/
def chainOB : Graph × Label := orDefault (add_traversal QueryGraph.fresh.1 QueryGraph.fresh.2 ["OB"])

/-- Second chain node. -/
def chainRun : Graph × Label := orDefault (add_traversal chainOB.1 chainOB.2 ["run"])

/-- The aggregation node of the chain, scoped (`wrt`) to the OB node. -/
def chainAgg : Graph × Label := orDefault (add_aggregation chainRun.1 chainRun.2 chainOB.2 "count")

/-- Aggregation node that also has a dependency successor: an operation
chained on the aggregation of `chainAgg`. -/
def chainOp : Graph × Label := orDefault (add_operation chainAgg.1 chainAgg.2 [] "x+1")

/-- Three-node chain `data → OB → run` kept free of aggregations (used to
exercise `preserve_state_for_subqueries`). -/
def purechain : Graph × Label := orDefault (add_traversal chainOB.1 chainOB.2 ["run"])

/-- The filterless base view every compilation starts from. -/
def baseView : GView := .restrict .base [] [] none

/-- Identity-reuse scenario: third node added on top of the chain. -/
def reuseC : Graph × Label := orDefault (add_traversal purechain.1 purechain.2 ["spec"])

/-- Identity-reuse scenario: the graph after the compiler-style removal of
the OB node. -/
def reuseAfterRemove : Graph := (reuseC.1.removeNode chainOB.2).getD Graph.empty

/-- Identity-reuse scenario: a node created after the removal; its identity
collides with the still-live `run` node. -/
def reuseD : Graph × Label := orDefault (add_traversal reuseAfterRemove purechain.2 ["l1"])

/-- The entity subgraph of the OB traversal (used to spell the adversarial
dependency label of the builder-cycle scenario). -/
def obSubG : SubG := ((⟨["data"], []⟩ : SubG).addEdge "data" "OB")

/-- Label of the first traversal node in a fresh graph. -/
def obLabel : Label := ⟨1, "OB", obSubG⟩

/-- Label of the filter node added on top of it. -/
def filtLabel : Label := ⟨2, "OB", obSubG⟩

/-- The adversarial dependency label: exactly the key the third builder
call will construct, passed as a (then dangling) dependency to the second
call. -/
def cycleDep : Label := ⟨4, "X", obSubG.addEdge "OB" "X"⟩

/-- Builder-call sequence producing a dependency cycle: a traversal, a
filter depending on the yet-to-exist label, then the traversal that
creates that very label. -/
def cycleOps : List BOp :=
  [.trav QueryGraph.fresh.2 ["OB"], .filt obLabel [cycleDep] "f", .trav filtLabel ["X"]]

/-- The graph those calls produce. -/
def cycleGraph : Graph := applyOps QueryGraph.fresh.1 cycleOps

/-- A complete concrete compilation run: the one-traversal chain compiled
from its start node to the OB node. -/
def chainRunResult : Except PyErr (List Stmt × Graph × Graph) :=
  traverse_query_graph chainOB.1 chainOB.2 QueryGraph.fresh.2 6

/-- The statements that run emits. -/
def chainRunStmts : List Stmt := (chainRunResult.map (fun r => r.1)).toOption.getD []

/-- The final state of the compiler's working copy in that run. -/
def chainRunOg : Graph :=
  (chainRunResult.map (fun r => r.2.1)).toOption.getD Graph.empty

/-- A complete concrete `preserve_state_for_subqueries` run on the pure
chain, checkpointing the OB node: the resulting graph, checkpoint label
and unwind label. -/
def presTriple : Graph × Label × Label :=
  match preserve_state_for_subqueries purechain.1 QueryGraph.fresh.2 chainOB.2 with
  | .ok r => r
  | .error _ => (Graph.empty, ⟨0, "", ⟨[], []⟩⟩, ⟨0, "", ⟨[], []⟩⟩)

/-! ## General lemmas about the graph operations -/

theorem Graph.edges_addNodeAttrs (g : Graph) (l : Label) (d : NodeData) :
    (g.addNodeAttrs l d).edges = g.edges := by
  unfold Graph.addNodeAttrs; split <;> rfl

theorem Graph.edges_ensureNode (g : Graph) (l : Label) :
    (g.ensureNode l).edges = g.edges := by
  unfold Graph.ensureNode; split <;> rfl

theorem Graph.edgeData_congr {g g' : Graph} (h : g.edges = g'.edges) (a b : Label) :
    g.edgeData a b = g'.edgeData a b := by
  unfold Graph.edgeData; rw [h]

theorem Graph.hasEdge_congr {g g' : Graph} (h : g.edges = g'.edges) (a b : Label) :
    g.hasEdge a b = g'.hasEdge a b := by
  unfold Graph.hasEdge; rw [Graph.edgeData_congr h]

theorem Graph.addEdge_edges_of_new {g : Graph} {a b : Label} (d : EdgeData)
    (h : g.hasEdge a b = false) :
    (g.addEdge a b d).edges = g.edges ++ [(a, b, d)] := by
  unfold Graph.addEdge
  have he : ((g.ensureNode a).ensureNode b).edges = g.edges := by
    rw [Graph.edges_ensureNode, Graph.edges_ensureNode]
  have hh : ((g.ensureNode a).ensureNode b).hasEdge a b = false := by
    rw [Graph.hasEdge_congr he]; exact h
  simp only [hh, Bool.false_eq_true, if_false, he]

theorem Graph.hasNode_ensureNode_mono {g : Graph} {x : Label} (l : Label)
    (h : g.hasNode x = true) : (g.ensureNode l).hasNode x = true := by
  unfold Graph.ensureNode
  split
  · exact h
  · unfold Graph.hasNode at h ⊢
    simp only [List.any_append, h, Bool.true_or]

theorem Graph.hasNode_ensureNode_self (g : Graph) (l : Label) :
    (g.ensureNode l).hasNode l = true := by
  unfold Graph.ensureNode
  split
  · assumption
  · unfold Graph.hasNode
    simp

theorem Graph.nodes_ensureNode_of_has {g : Graph} {l : Label}
    (h : g.hasNode l = true) : g.ensureNode l = g := by
  unfold Graph.ensureNode; simp [h]

theorem Graph.nodes_addEdge_of_has {g : Graph} {a b : Label} (d : EdgeData)
    (ha : g.hasNode a = true) (hb : g.hasNode b = true) :
    (g.addEdge a b d).nodes = g.nodes := by
  unfold Graph.addEdge
  rw [Graph.nodes_ensureNode_of_has ha, Graph.nodes_ensureNode_of_has hb]
  dsimp only
  split <;> rfl

theorem Graph.hasNode_addEdge_mono {g : Graph} {x : Label} (a b : Label) (d : EdgeData)
    (h : g.hasNode x = true) : (g.addEdge a b d).hasNode x = true := by
  have h1 : ((g.ensureNode a).ensureNode b).hasNode x = true :=
    Graph.hasNode_ensureNode_mono _ (Graph.hasNode_ensureNode_mono _ h)
  unfold Graph.addEdge
  dsimp only
  split
  · exact h1
  · exact h1

theorem Graph.hasNode_addNodeAttrs_mono {g : Graph} {x : Label} (l : Label) (d : NodeData)
    (h : g.hasNode x = true) : (g.addNodeAttrs l d).hasNode x = true := by
  unfold Graph.addNodeAttrs Graph.hasNode at *
  split
  · simp only [List.any_eq_true] at h ⊢
    obtain ⟨p, hp, he⟩ := h
    exact ⟨(p.1, if p.1 = l then some d else p.2), by
      simp only [List.mem_map]
      exact ⟨p, hp, by split <;> rfl⟩, he⟩
  · simp only [List.any_append, h, Bool.true_or]

theorem Graph.hasNode_addNodeAttrs_self (g : Graph) (l : Label) (d : NodeData) :
    (g.addNodeAttrs l d).hasNode l = true := by
  unfold Graph.addNodeAttrs
  split
  · next hh =>
      unfold Graph.hasNode at hh ⊢
      simp only [List.any_eq_true] at hh ⊢
      obtain ⟨p, hp, he⟩ := hh
      refine ⟨(p.1, if p.1 = l then some d else p.2), ?_, he⟩
      simp only [List.mem_map]
      exact ⟨p, hp, by split <;> rfl⟩
  · unfold Graph.hasNode
    simp

theorem Graph.hasNode_of_dataOf {g : Graph} {l : Label} {d : NodeData}
    (h : g.dataOf l = some d) : g.hasNode l = true := by
  unfold Graph.dataOf at h
  unfold Graph.hasNode
  cases hf : g.nodes.find? (fun p => p.1 = l) with
  | none => rw [hf] at h; simp at h
  | some p =>
      have := List.mem_of_find?_eq_some hf
      have hp := List.find?_some hf
      simp only [decide_eq_true_eq] at hp
      simp only [List.any_eq_true, decide_eq_true_eq]
      exact ⟨p, this, hp⟩

theorem fresh_label_not_node {g : Graph} (h : NodesBounded g) {k : Nat}
    (hk : g.numberOfNodes ≤ k) (nm : String) (sg : SubG) :
    g.hasNode ⟨k, nm, sg⟩ = false := by
  unfold Graph.hasNode
  simp only [List.any_eq_false, decide_eq_true_eq]
  intro p hp he
  have hlt := h p hp
  rw [he] at hlt
  have hx : k < g.numberOfNodes := hlt
  omega

theorem no_incident_edges {g : Graph} {x : Label} (hv : EdgesValid g)
    (h : g.hasNode x = false) : ∀ e ∈ g.edges, e.1 ≠ x ∧ e.2.1 ≠ x := by
  intro e he
  obtain ⟨h1, h2⟩ := hv e he
  constructor
  · intro hx; rw [hx] at h1; rw [h1] at h; cases h
  · intro hx; rw [hx] at h2; rw [h2] at h; cases h

theorem Graph.edgeData_eq_none {g : Graph} {a b : Label}
    (h : ∀ e ∈ g.edges, ¬(e.1 = a ∧ e.2.1 = b)) : g.edgeData a b = none := by
  unfold Graph.edgeData
  have : g.edges.find? (fun e => e.1 = a ∧ e.2.1 = b) = none := by
    rw [List.find?_eq_none]
    intro e he
    simpa using h e he
  rw [this]; rfl

theorem Graph.mem_of_edgeData {g : Graph} {a b : Label} {d : EdgeData}
    (h : g.edgeData a b = some d) : (a, b, d) ∈ g.edges := by
  unfold Graph.edgeData at h
  cases hf : g.edges.find? (fun e => e.1 = a ∧ e.2.1 = b) with
  | none => rw [hf] at h; simp at h
  | some e =>
      rw [hf] at h
      have h3 : e.2.2 = d := by simpa using h
      have hm := List.mem_of_find?_eq_some hf
      have hp := List.find?_some hf
      simp only [decide_eq_true_eq] at hp
      obtain ⟨h1, h2⟩ := hp
      have : e = (a, b, d) := by
        obtain ⟨e1, e2, e3⟩ := e
        simp only at h1 h2 h3
        simp [h1, h2, h3]
      rw [← this]; exact hm

theorem Graph.hasEdge_false_find {g : Graph} {a b : Label}
    (h : g.hasEdge a b = false) :
    g.edges.find? (fun e => e.1 = a ∧ e.2.1 = b) = none := by
  unfold Graph.hasEdge Graph.edgeData at h
  cases hf : g.edges.find? (fun e => e.1 = a ∧ e.2.1 = b) with
  | none => rfl
  | some e => rw [hf] at h; simp at h

theorem Graph.edgeData_addEdge_self {g : Graph} {a b : Label} (d : EdgeData)
    (h : g.hasEdge a b = false) : (g.addEdge a b d).edgeData a b = some d := by
  rw [show (g.addEdge a b d).edgeData a b =
      ((g.edges ++ [(a, b, d)]).find? (fun e => e.1 = a ∧ e.2.1 = b)).map
        (fun e => e.2.2) by
    unfold Graph.edgeData
    rw [Graph.addEdge_edges_of_new d h]]
  rw [List.find?_append, Graph.hasEdge_false_find h]
  simp [List.find?]

theorem findKey_map_update (l : List (Label × Label × EdgeData)) (a b x y : Label)
    (d : EdgeData) (h : ¬(x = a ∧ y = b)) :
    (l.map (fun e => if e.1 = a ∧ e.2.1 = b then (e.1, e.2.1, e.2.2.update d) else e)).find?
        (fun e => e.1 = x ∧ e.2.1 = y) =
      l.find? (fun e => e.1 = x ∧ e.2.1 = y) := by
  induction l with
  | nil => rfl
  | cons e rest ih =>
      by_cases hk : e.1 = a ∧ e.2.1 = b
      · have hne : (decide (e.1 = x ∧ e.2.1 = y)) = false := by
          simp only [decide_eq_false_iff_not]
          rintro ⟨hc1, hc2⟩
          exact h ⟨hc1.symm.trans hk.1, hc2.symm.trans hk.2⟩
        have hne2 : (decide ((e.1, e.2.1, e.2.2.update d).1 = x ∧
            (e.1, e.2.1, e.2.2.update d).2.1 = y)) = false := hne
        simp only [List.map_cons, if_pos hk, List.find?, hne, hne2]
        exact ih
      · simp only [List.map_cons, if_neg hk, List.find?]
        cases hq : decide (e.1 = x ∧ e.2.1 = y)
        · exact ih
        · rfl

theorem findKey_filter_removed (l : List (Label × Label × EdgeData)) (a b x y : Label)
    (hne : ¬(x = a ∧ y = b)) :
    (l.filter (fun e => ¬(e.1 = a ∧ e.2.1 = b))).find? (fun e => e.1 = x ∧ e.2.1 = y) =
      l.find? (fun e => e.1 = x ∧ e.2.1 = y) := by
  induction l with
  | nil => rfl
  | cons e rest ih =>
      by_cases hk : e.1 = a ∧ e.2.1 = b
      · have h1 : (decide ¬(e.1 = a ∧ e.2.1 = b)) = false := by simp [hk]
        have hnx : (decide (e.1 = x ∧ e.2.1 = y)) = false := by
          simp only [decide_eq_false_iff_not]
          rintro ⟨hc1, hc2⟩
          exact hne ⟨hc1.symm.trans hk.1, hc2.symm.trans hk.2⟩
        simp only [List.filter, h1, List.find?, hnx]
        exact ih
      · have h1 : (decide ¬(e.1 = a ∧ e.2.1 = b)) = true := by simp [hk]
        simp only [List.filter, h1, List.find?]
        cases hq : decide (e.1 = x ∧ e.2.1 = y)
        · exact ih
        · rfl

theorem findKey_of_mem_nodup {l : List (Label × Label × EdgeData)} {a b : Label}
    {d : EdgeData}
    (hn : l.Pairwise (fun e1 e2 => (e1.1, e1.2.1) ≠ (e2.1, e2.2.1)))
    (hm : (a, b, d) ∈ l) :
    l.find? (fun e => e.1 = a ∧ e.2.1 = b) = some (a, b, d) := by
  induction l with
  | nil => cases hm
  | cons e rest ih =>
      rcases List.mem_cons.mp hm with he | hm'
      · subst he
        simp [List.find?]
      · have hpw := (List.pairwise_cons.mp hn).1 _ hm'
        have hne : (decide (e.1 = a ∧ e.2.1 = b)) = false := by
          simp only [decide_eq_false_iff_not]
          rintro ⟨hc1, hc2⟩
          exact hpw (by simp [hc1, hc2])
        simp only [List.find?, hne]
        exact ih (List.pairwise_cons.mp hn).2 hm'

theorem Graph.edgeData_addEdge_other {g : Graph} {a b x y : Label} (d : EdgeData)
    (h : ¬(x = a ∧ y = b)) : (g.addEdge a b d).edgeData x y = g.edgeData x y := by
  unfold Graph.addEdge
  dsimp only
  have he : ((g.ensureNode a).ensureNode b).edges = g.edges := by
    rw [Graph.edges_ensureNode, Graph.edges_ensureNode]
  split
  · unfold Graph.edgeData
    dsimp only
    rw [he, findKey_map_update _ _ _ _ _ _ h]
  · unfold Graph.edgeData
    dsimp only
    rw [he, List.find?_append]
    have hone : [(a, b, d)].find? (fun e => e.1 = x ∧ e.2.1 = y) = none := by
      have hd : (decide ((a, b, d).1 = x ∧ (a, b, d).2.1 = y)) = false := by
        simp only [decide_eq_false_iff_not]
        rintro ⟨hc1, hc2⟩
        exact h ⟨hc1.symm, hc2.symm⟩
      simp only [List.find?, hd]
    rw [hone]
    cases g.edges.find? (fun e => e.1 = x ∧ e.2.1 = y) <;> rfl

theorem Graph.edgeData_removeEdge_self {g g' : Graph} {a b : Label}
    (h : g.removeEdge a b = some g') : g'.edgeData a b = none := by
  unfold Graph.removeEdge at h
  split at h
  · cases h
    apply Graph.edgeData_eq_none
    intro e he
    simp only [List.mem_filter, decide_eq_true_eq] at he
    exact he.2
  · cases h

theorem Graph.edgeData_removeEdge_other {g g' : Graph} {a b x y : Label}
    (h : g.removeEdge a b = some g') (hne : ¬(x = a ∧ y = b)) :
    g'.edgeData x y = g.edgeData x y := by
  unfold Graph.removeEdge at h
  split at h
  · cases h
    unfold Graph.edgeData
    dsimp only
    rw [findKey_filter_removed _ _ _ _ _ hne]
  · cases h

theorem Graph.removeEdge_isSome_of_edgeData {g : Graph} {a b : Label} {d : EdgeData}
    (h : g.edgeData a b = some d) : ∃ g', g.removeEdge a b = some g' := by
  unfold Graph.removeEdge Graph.hasEdge
  rw [h]
  exact ⟨_, rfl⟩

theorem Graph.edgeData_of_mem_nodup {g : Graph} {a b : Label} {d : EdgeData}
    (hn : EdgesNodup g) (hm : (a, b, d) ∈ g.edges) : g.edgeData a b = some d := by
  unfold Graph.edgeData
  rw [findKey_of_mem_nodup hn hm]
  rfl

theorem Graph.hasEdge_false_of_edgeData_none {g : Graph} {a b : Label}
    (h : g.edgeData a b = none) : g.hasEdge a b = false := by
  unfold Graph.hasEdge
  rw [h]
  rfl

theorem hasNode_ne_of_true_false {g : Graph} {x y : Label}
    (hx : g.hasNode x = true) (hy : g.hasNode y = false) : x ≠ y := by
  intro h
  rw [h] at hx
  rw [hx] at hy
  cases hy

/-! ## C2: the aggregation builder performs no ancestry check -/

/-- C2 (counterexample): the claim says `add_aggregation` fails whenever the
scope anchor is not an ancestor of the parent.  With two sibling traversal
nodes — the second is no ancestor of the first — the call nevertheless
succeeds. -/
theorem add_aggregation_no_check_cx :
    isAncestorB sibB.1 sibB.2 sibA.2 = false ∧
    (add_aggregation sibB.1 sibA.2 sibB.2 "count").isSome = true := by
  exact ⟨by decide, by decide⟩

/-- C2 (amended): `add_aggregation(parent, scope_anchor, expression)` never
checks ancestry: whenever both nodes exist (carry attributes) it succeeds —
scope anchor ancestor of the parent or not — appending an aggregation edge
from the parent to a fresh node together with exactly one outgoing `'wrt'`
edge from that node to the scope anchor; the ancestry requirement is a
documented invariant the builder does not enforce. -/
theorem add_aggregation_amended (g : Graph) (parent wrt : Label) (op : String)
    {wd pd : NodeData} (hw : g.dataOf wrt = some wd) (hp : g.dataOf parent = some pd)
    (hB : NodesBounded g) (hV : EdgesValid g) :
    ∃ n g', add_aggregation g parent wrt op = some (g', n) ∧
      g.hasNode n = false ∧
      g'.edgeData parent n = some ⟨some "aggr", some ("aggr-" ++ op), some op, none⟩ ∧
      g'.outEdges n = [(n, wrt, ⟨some "wrt", none, none, some "dashed"⟩)] := by
  have hwn : g.hasNode wrt = true := Graph.hasNode_of_dataOf hw
  have hpn : g.hasNode parent = true := Graph.hasNode_of_dataOf hp
  have hnfresh : g.hasNode ⟨g.numberOfNodes, op, wd.subgraph⟩ = false :=
    fresh_label_not_node hB (Nat.le_refl _) op wd.subgraph
  set n : Label := ⟨g.numberOfNodes, op, wd.subgraph⟩ with hn
  have hne_parent : parent ≠ n := hasNode_ne_of_true_false hpn hnfresh
  have hincident := no_incident_edges hV hnfresh
  set d0 : NodeData := ⟨wd.subgraph, pd.scalars ++ [op], op, g.numberOfNodes⟩ with hd0
  set e1 : EdgeData := ⟨some "aggr", some ("aggr-" ++ op), some op, none⟩ with he1
  set e2 : EdgeData := ⟨some "wrt", none, none, some "dashed"⟩ with he2
  have hg2edges : (g.addNodeAttrs n d0).edges = g.edges := Graph.edges_addNodeAttrs g n d0
  have hhe2 : (g.addNodeAttrs n d0).hasEdge parent n = false := by
    apply Graph.hasEdge_false_of_edgeData_none
    apply Graph.edgeData_eq_none
    intro e he
    rw [hg2edges] at he
    rintro ⟨_, h2⟩
    exact (hincident e he).2 h2
  have hg3edges : ((g.addNodeAttrs n d0).addEdge parent n e1).edges =
      g.edges ++ [(parent, n, e1)] := by
    rw [Graph.addEdge_edges_of_new e1 hhe2, hg2edges]
  have hhe3 : ((g.addNodeAttrs n d0).addEdge parent n e1).hasEdge n wrt = false := by
    apply Graph.hasEdge_false_of_edgeData_none
    apply Graph.edgeData_eq_none
    intro e he
    rw [hg3edges] at he
    rintro ⟨h1, _⟩
    rcases List.mem_append.mp he with hmem | hmem
    · exact (hincident e hmem).1 h1
    · simp only [List.mem_singleton] at hmem
      rw [hmem] at h1
      exact hne_parent h1
  have hg4edges : (((g.addNodeAttrs n d0).addEdge parent n e1).addEdge n wrt e2).edges =
      g.edges ++ [(parent, n, e1)] ++ [(n, wrt, e2)] := by
    rw [Graph.addEdge_edges_of_new e2 hhe3, hg3edges]
  have hresult : add_aggregation g parent wrt op =
      some ((((g.addNodeAttrs n d0).addEdge parent n e1).addEdge n wrt e2), n) := by
    unfold add_aggregation make_node
    rw [hw, hp]
    rfl
  refine ⟨n, ((g.addNodeAttrs n d0).addEdge parent n e1).addEdge n wrt e2,
    hresult, hnfresh, ?_, ?_⟩
  · rw [show (((g.addNodeAttrs n d0).addEdge parent n e1).addEdge n wrt e2).edgeData
        parent n = ((g.addNodeAttrs n d0).addEdge parent n e1).edgeData parent n from
      Graph.edgeData_addEdge_other e2 (fun hc => hne_parent hc.1)]
    exact Graph.edgeData_addEdge_self e1 hhe2
  · unfold Graph.outEdges
    rw [hg4edges]
    rw [List.filter_append, List.filter_append]
    have h1 : g.edges.filter (fun e => e.1 = n) = [] := by
      rw [List.filter_eq_nil_iff]
      intro e he
      simp only [decide_eq_true_eq]
      exact (hincident e he).1
    have h2 : [(parent, n, e1)].filter (fun e => e.1 = n) = [] := by
      simp [hne_parent]
    have h3 : [(n, wrt, e2)].filter (fun e => e.1 = n) = [(n, wrt, e2)] := by
      simp
    rw [h1, h2, h3]
    rfl

/-- C2 (witness): the amended statement applied to the sibling graph — the
very scenario in which the anchor is not an ancestor. -/
theorem add_aggregation_amended_witness :
    ∃ n g', add_aggregation sibB.1 sibA.2 sibB.2 "count" = some (g', n) ∧
      sibB.1.hasNode n = false ∧
      g'.edgeData sibA.2 n =
        some ⟨some "aggr", some ("aggr-" ++ "count"), some "count", none⟩ ∧
      g'.outEdges n =
        [(n, sibB.2, ⟨some "wrt", none, none, some "dashed"⟩)] :=
  add_aggregation_amended sibB.1 sibA.2 sibB.2 "count" rfl rfl (by decide) (by decide)

/-! ## C4: the branch comparator is symmetric, not antisymmetric, and the
sort is a no-op -/

theorem sharesNode_symm (d1 d2 : List Label) : sharesNode d1 d2 = sharesNode d2 d1 := by
  unfold sharesNode
  cases h1 : d1.any (fun n => d2.any (fun m => m = n)) <;>
    cases h2 : d2.any (fun n => d1.any (fun m => m = n)) <;> try rfl
  · exfalso
    simp only [List.any_eq_false, List.any_eq_true, decide_eq_true_eq, not_exists,
      not_and] at h1 h2
    obtain ⟨x, hx, y, hy, he⟩ := h2
    exact h1 y hy x hx he.symm
  · exfalso
    simp only [List.any_eq_false, List.any_eq_true, decide_eq_true_eq, not_exists,
      not_and] at h1 h2
    obtain ⟨x, hx, y, hy, he⟩ := h1
    exact h2 y hy x hx he.symm

theorem compare_two_dags_nonneg (d1 d2 : List Label) :
    compare_two_dags d1 d2 = if sharesNode d1 d2 then 1 else 0 := by
  unfold compare_two_dags
  cases h : sharesNode d1 d2
  · rw [sharesNode_symm] at h
    simp [h, sharesNode_symm d2 d1]
  · simp [h]

theorem cmpDagsLt_false (d1 d2 : List Label) : cmpDagsLt d1 d2 = false := by
  unfold cmpDagsLt
  rw [compare_two_dags_nonneg]
  split <;> decide

theorem pyInsert_append (x : α) (l : List α) (lt : α → α → Bool)
    (h : ∀ a b, lt a b = false) : pyInsert lt x l = l ++ [x] := by
  induction l with
  | nil => rfl
  | cons y ys ih =>
      unfold pyInsert
      rw [h x y]
      simp only [Bool.false_eq_true, if_false]
      rw [ih]
      rfl

theorem pySort_id (l : List α) (lt : α → α → Bool) (h : ∀ a b, lt a b = false) :
    pySort lt l = l := by
  have key : ∀ (rest acc : List α),
      rest.foldl (fun acc x => pyInsert lt x acc) acc = acc ++ rest := by
    intro rest
    induction rest with
    | nil => intro acc; simp
    | cons x xs ih =>
        intro acc
        simp only [List.foldl_cons]
        rw [pyInsert_append x acc lt h, ih]
        simp
  unfold pySort
  rw [key l []]
  rfl

/-- C4 (counterexample): two overlapping branch lists on which the
comparator returns `+1` in both argument orders — `compare_two_dags` is
not antisymmetric on overlapping branches, and no order can put a branch
before another whenever the other shares a node with it (sharing is
symmetric). -/
theorem compare_two_dags_not_antisymm_cx :
    sharesNode [chainOB.2] [chainOB.2, chainRun.2] = true ∧
    compare_two_dags [chainOB.2] [chainOB.2, chainRun.2] = 1 ∧
    compare_two_dags [chainOB.2, chainRun.2] [chainOB.2] = 1 := by
  exact ⟨by decide, by decide, by decide⟩

/-- C4 (amended): `compare_two_dags` returns `+1` whenever the two branch
lists share a node — in either argument order, so it is symmetric rather
than antisymmetric — and `0` otherwise; it is never negative, hence the
stable sort `branches.sort(key=compare_two_dags)` never moves an element:
`get_branches` returns its branches in the graph's `'wrt'`-predecessor
iteration order, and the first branch picked by the compiler is simply the
first such predecessor's branch. -/
theorem compare_two_dags_amended :
    (∀ d1 d2 : List Label, compare_two_dags d1 d2 = if sharesNode d1 d2 then 1 else 0) ∧
    (∀ d1 d2 : List Label, compare_two_dags d1 d2 = compare_two_dags d2 d1) ∧
    (∀ l : List (List Label), pySort cmpDagsLt l = l) := by
  refine ⟨compare_two_dags_nonneg, ?_, fun l => pySort_id l _ cmpDagsLt_false⟩
  intro d1 d2
  rw [compare_two_dags_nonneg, compare_two_dags_nonneg, sharesNode_symm]

/-! ## C3: the Branch Resolver drops the first element of each branch -/

/-- C3 (counterexample): on the chain `data → OB → run` with `count`
aggregated from the run node back to the OB node, the difference set
`ancestors(count) − ancestors(OB)` is `{OB, run}`, whose only topological
order is `[OB, run]` (the dependency edge runs `OB → run`).  The claim
demands the branch `[OB, run, count, OB]`; `get_branches` instead drops the
first element of the topological sort (`[1:]` in the source) and returns
`[run, count, OB]`. -/
theorem get_branches_drops_first_cx :
    get_branches (dagView chainAgg.1) (wrtView chainAgg.1) chainOB.2 =
      .ok ([[chainRun.2, chainAgg.2, chainOB.2]], true) ∧
    branchSpec (dagView chainAgg.1) chainOB.2 chainAgg.2 =
      [chainOB.2, chainRun.2, chainAgg.2, chainOB.2] ∧
    ([chainOB.2, chainRun.2, chainAgg.2, chainOB.2] : List Label) ≠
      [chainRun.2, chainAgg.2, chainOB.2] := by
  exact ⟨by decide, by decide, by decide⟩

/-- C3 (amended): `get_branches` returns exactly one branch per aggregation
node `A` whose `'wrt'` scope anchor is `N`, in the anchor's
`'wrt'`-predecessor iteration order (the comparator sort never reorders),
and each branch equals the topological sort of
`ancestors(A) − ancestors(N)` with its first element dropped (when `N` is
an ancestor of `A`, that first element is `N` itself), with `[A, N]`
appended. -/
theorem get_branches_amended (dag backwards : Graph) (parent : Label)
    (bs : List (List Label)) (u : Bool)
    (h : get_branches dag backwards parent = .ok (bs, u)) :
    bs = (backwards.predecessors parent).map (fun A =>
      (topological_sort (dag.filterNodes (fun n =>
        (ancestors dag A).any (fun m => m = n) &&
        !((ancestors dag parent).any (fun m => m = n))))).drop 1 ++ [A, parent]) := by
  unfold get_branches at h
  dsimp only at h
  rw [pySort_id _ _ cmpDagsLt_false] at h
  cases hscan : unwoundScan (dag.inEdges parent) with
  | error e => rw [hscan] at h; cases h
  | ok b =>
      rw [hscan] at h
      cases h
      rfl

/-- C3 (witness): the amended statement applied to the chain graph. -/
theorem get_branches_amended_witness :
    [[chainRun.2, chainAgg.2, chainOB.2]] =
      ((wrtView chainAgg.1).predecessors chainOB.2).map (fun A =>
        (topological_sort ((dagView chainAgg.1).filterNodes (fun n =>
          (ancestors (dagView chainAgg.1) A).any (fun m => m = n) &&
          !((ancestors (dagView chainAgg.1) chainOB.2).any (fun m => m = n))))).drop 1 ++
        [A, chainOB.2]) :=
  get_branches_amended (dagView chainAgg.1) (wrtView chainAgg.1) chainOB.2
    [[chainRun.2, chainAgg.2, chainOB.2]] true (by decide)

/-! ## Invariants of builder-call sequences (C8, C9) -/

theorem nodesIndexedFrom_append :
    ∀ {xs : List (Label × Option NodeData)} {n : Nat}, NodesIndexedFrom n xs →
    ∀ (l : Label) (d : NodeData), l.i = n + xs.length → d.i = n + xs.length →
    NodesIndexedFrom n (xs ++ [(l, some d)])
  | [], n, _, l, d, hl, hd => by
      refine ⟨by simpa using hl, ⟨d, rfl, by simpa using hd⟩, trivial⟩
  | (p :: rest), n, h, l, d, hl, hd => by
      obtain ⟨h1, h2, h3⟩ := h
      refine ⟨h1, h2, ?_⟩
      have := nodesIndexedFrom_append h3 l d (by simp [hl]; omega) (by simp [hd]; omega)
      simpa using this

theorem nodesIndexedFrom_mem :
    ∀ {xs : List (Label × Option NodeData)} {n : Nat}, NodesIndexedFrom n xs →
    ∀ {p}, p ∈ xs →
    n ≤ p.1.i ∧ p.1.i < n + xs.length ∧ ∃ d, p.2 = some d ∧ d.i = p.1.i
  | [], _, _, _, hp => by cases hp
  | (q :: rest), n, h, p, hp => by
      obtain ⟨h1, ⟨d, hd, hdi⟩, h3⟩ := h
      rcases List.mem_cons.mp hp with he | hm
      · subst he
        exact ⟨by omega, by simp only [List.length_cons]; omega,
          ⟨d, hd, by rw [hdi, h1]⟩⟩
      · have := nodesIndexedFrom_mem h3 hm
        exact ⟨by omega, by simp only [List.length_cons]; omega, this.2.2⟩

theorem Graph.hasNode_iff_mem {g : Graph} {x : Label} :
    g.hasNode x = true ↔ ∃ od, (x, od) ∈ g.nodes := by
  unfold Graph.hasNode
  simp only [List.any_eq_true, decide_eq_true_eq]
  constructor
  · rintro ⟨p, hp, he⟩
    exact ⟨p.2, by rw [← he]; exact hp⟩
  · rintro ⟨od, hm⟩
    exact ⟨(x, od), hm, rfl⟩

theorem NodesIndexed.lt_of_hasNode {g : Graph} (h : NodesIndexed g) {x : Label}
    (hx : g.hasNode x = true) : x.i < g.nodes.length := by
  obtain ⟨od, hm⟩ := Graph.hasNode_iff_mem.mp hx
  have h2 := (nodesIndexedFrom_mem h hm).2.1
  simpa using h2

theorem NodesIndexed.nodesBounded {g : Graph} (h : NodesIndexed g) : NodesBounded g := by
  intro p hp
  have h2 := (nodesIndexedFrom_mem h hp).2.1
  simpa [Graph.numberOfNodes] using h2

theorem Graph.nodes_addNodeAttrs_fresh {g : Graph} {l : Label} (d : NodeData)
    (h : g.hasNode l = false) :
    (g.addNodeAttrs l d).nodes = g.nodes ++ [(l, some d)] := by
  unfold Graph.addNodeAttrs
  rw [h]
  simp

/-- Full shape of `make_node` with a parent, on a well-formed graph: the
fresh key, the appended node entry and the appended parent edge. -/
theorem make_node_some_parent (g : Graph) (parent : Label) (sg : SubG)
    (scal : List String) (nm ty oper : String)
    (hp : g.hasNode parent = true) (hB : NodesBounded g) (hV : EdgesValid g) :
    (make_node g (some parent) sg scal nm ty oper).2 = ⟨g.nodes.length, nm, sg⟩ ∧
    (make_node g (some parent) sg scal nm ty oper).1.nodes =
      g.nodes ++ [(⟨g.nodes.length, nm, sg⟩, some ⟨sg, scal, nm, g.nodes.length⟩)] ∧
    (make_node g (some parent) sg scal nm ty oper).1.edges =
      g.edges ++ [(parent, ⟨g.nodes.length, nm, sg⟩,
        ⟨some ty, some (ty ++ "-" ++ oper), some oper, none⟩)] := by
  have hfresh : g.hasNode ⟨g.nodes.length, nm, sg⟩ = false :=
    fresh_label_not_node hB (Nat.le_refl _) nm sg
  have hnodes2 : (g.addNodeAttrs ⟨g.nodes.length, nm, sg⟩
      ⟨sg, scal, nm, g.nodes.length⟩).nodes =
      g.nodes ++ [(⟨g.nodes.length, nm, sg⟩, some ⟨sg, scal, nm, g.nodes.length⟩)] :=
    Graph.nodes_addNodeAttrs_fresh _ hfresh
  have hedges2 := Graph.edges_addNodeAttrs g ⟨g.nodes.length, nm, sg⟩
    ⟨sg, scal, nm, g.nodes.length⟩
  have hne : (g.addNodeAttrs ⟨g.nodes.length, nm, sg⟩
      ⟨sg, scal, nm, g.nodes.length⟩).hasEdge parent ⟨g.nodes.length, nm, sg⟩ = false := by
    apply Graph.hasEdge_false_of_edgeData_none
    apply Graph.edgeData_eq_none
    intro e he
    rw [hedges2] at he
    rintro ⟨_, h2⟩
    exact (no_incident_edges hV hfresh e he).2 h2
  have hp2 : (g.addNodeAttrs ⟨g.nodes.length, nm, sg⟩
      ⟨sg, scal, nm, g.nodes.length⟩).hasNode parent = true :=
    Graph.hasNode_addNodeAttrs_mono _ _ hp
  have hl2 : (g.addNodeAttrs ⟨g.nodes.length, nm, sg⟩
      ⟨sg, scal, nm, g.nodes.length⟩).hasNode ⟨g.nodes.length, nm, sg⟩ = true :=
    Graph.hasNode_addNodeAttrs_self _ _ _
  refine ⟨rfl, ?_, ?_⟩
  · show ((g.addNodeAttrs ⟨g.nodes.length, nm, sg⟩
        ⟨sg, scal, nm, g.nodes.length⟩).addEdge parent ⟨g.nodes.length, nm, sg⟩
        _).nodes = _
    rw [Graph.nodes_addEdge_of_has _ hp2 hl2, hnodes2]
  · show ((g.addNodeAttrs ⟨g.nodes.length, nm, sg⟩
        ⟨sg, scal, nm, g.nodes.length⟩).addEdge parent ⟨g.nodes.length, nm, sg⟩
        _).edges = _
    rw [Graph.addEdge_edges_of_new _ hne, hedges2]

theorem EdgeMono_addEdge_lt {g : Graph} (hm : EdgeMono g) {a b : Label} (d : EdgeData)
    (hab : a.i < b.i) : EdgeMono (g.addEdge a b d) := by
  intro e he hty
  unfold Graph.addEdge at he
  dsimp only at he
  have hedges : ((g.ensureNode a).ensureNode b).edges = g.edges := by
    rw [Graph.edges_ensureNode, Graph.edges_ensureNode]
  split at he
  · simp only [hedges] at he
    simp only [List.mem_map] at he
    obtain ⟨e0, he0, heq⟩ := he
    by_cases hk : e0.1 = a ∧ e0.2.1 = b
    · rw [if_pos hk] at heq
      rw [← heq]
      simpa [hk.1, hk.2] using hab
    · rw [if_neg hk] at heq
      rw [← heq]
      exact hm e0 he0 (by rw [heq]; exact hty)
  · simp only [hedges] at he
    rcases List.mem_append.mp he with hmem | hmem
    · exact hm e hmem hty
    · simp only [List.mem_singleton] at hmem
      rw [hmem]
      exact hab

theorem EdgeMono_addEdge_wrt_new {g : Graph} (hm : EdgeMono g) {a b : Label}
    {d : EdgeData} (hnew : g.hasEdge a b = false) (hd : d.getTy = "wrt") :
    EdgeMono (g.addEdge a b d) := by
  intro e he hty
  rw [Graph.addEdge_edges_of_new d hnew] at he
  rcases List.mem_append.mp he with hmem | hmem
  · exact hm e hmem hty
  · simp only [List.mem_singleton] at hmem
    rw [hmem] at hty
    exact absurd hd hty

theorem EdgesValid_addNodeAttrs {g : Graph} (hv : EdgesValid g) (l : Label)
    (d : NodeData) : EdgesValid (g.addNodeAttrs l d) := by
  intro e he
  rw [Graph.edges_addNodeAttrs] at he
  obtain ⟨h1, h2⟩ := hv e he
  exact ⟨Graph.hasNode_addNodeAttrs_mono _ _ h1, Graph.hasNode_addNodeAttrs_mono _ _ h2⟩

theorem Graph.hasNode_addEdge_endpoints {g : Graph} (a b : Label) (d : EdgeData) :
    (g.addEdge a b d).hasNode a = true ∧ (g.addEdge a b d).hasNode b = true := by
  unfold Graph.addEdge
  dsimp only
  have ha : ((g.ensureNode a).ensureNode b).hasNode a = true :=
    Graph.hasNode_ensureNode_mono _ (Graph.hasNode_ensureNode_self g a)
  have hb : ((g.ensureNode a).ensureNode b).hasNode b = true :=
    Graph.hasNode_ensureNode_self _ b
  constructor
  · split
    · exact ha
    · exact ha
  · split
    · exact hb
    · exact hb

theorem EdgesValid_addEdge {g : Graph} (hv : EdgesValid g) (a b : Label)
    (d : EdgeData) : EdgesValid (g.addEdge a b d) := by
  have hmono : ∀ x, g.hasNode x = true → (g.addEdge a b d).hasNode x = true :=
    fun x h => Graph.hasNode_addEdge_mono a b d h
  have hend := Graph.hasNode_addEdge_endpoints (g := g) a b d
  intro e he
  unfold Graph.addEdge at he
  dsimp only at he
  have hedges : ((g.ensureNode a).ensureNode b).edges = g.edges := by
    rw [Graph.edges_ensureNode, Graph.edges_ensureNode]
  split at he
  · simp only [hedges, List.mem_map] at he
    obtain ⟨e0, he0, heq⟩ := he
    obtain ⟨h1, h2⟩ := hv e0 he0
    by_cases hk : e0.1 = a ∧ e0.2.1 = b
    · rw [if_pos hk] at heq
      rw [← heq]
      exact ⟨hmono _ h1, hmono _ h2⟩
    · rw [if_neg hk] at heq
      rw [← heq]
      exact ⟨hmono _ h1, hmono _ h2⟩
  · simp only [hedges] at he
    rcases List.mem_append.mp he with hmem | hmem
    · obtain ⟨h1, h2⟩ := hv e hmem
      exact ⟨hmono _ h1, hmono _ h2⟩
    · simp only [List.mem_singleton] at hmem
      rw [hmem]
      exact ⟨hend.1, hend.2⟩

theorem Graph.hasNode_congr {g g' : Graph} (h : g.nodes = g'.nodes) (x : Label) :
    g.hasNode x = g'.hasNode x := by
  unfold Graph.hasNode
  rw [h]

theorem NodesIndexed_congr {g g' : Graph} (h : g.nodes = g'.nodes)
    (hi : NodesIndexed g) : NodesIndexed g' := by
  unfold NodesIndexed at *
  rw [← h]
  exact hi

/-- Invariant payload of one `make_node` call with a parent on a
well-formed builder graph. -/
theorem make_node_inv (g : Graph) (parent : Label) (sg : SubG) (scal : List String)
    (nm ty oper : String) (hp : g.hasNode parent = true)
    (hI : NodesIndexed g) (hM : EdgeMono g) (hV : EdgesValid g) :
    NodesIndexed (make_node g (some parent) sg scal nm ty oper).1 ∧
    EdgeMono (make_node g (some parent) sg scal nm ty oper).1 ∧
    EdgesValid (make_node g (some parent) sg scal nm ty oper).1 ∧
    (make_node g (some parent) sg scal nm ty oper).2.i = g.nodes.length ∧
    (∀ x, g.hasNode x = true →
      (make_node g (some parent) sg scal nm ty oper).1.hasNode x = true) ∧
    g.hasNode (make_node g (some parent) sg scal nm ty oper).2 = false ∧
    (make_node g (some parent) sg scal nm ty oper).1.hasNode
      (make_node g (some parent) sg scal nm ty oper).2 = true ∧
    (make_node g (some parent) sg scal nm ty oper).1.edges =
      g.edges ++ [(parent, (make_node g (some parent) sg scal nm ty oper).2,
        ⟨some ty, some (ty ++ "-" ++ oper), some oper, none⟩)] := by
  obtain ⟨hlab, hnodes, hedges⟩ :=
    make_node_some_parent g parent sg scal nm ty oper hp hI.nodesBounded hV
  have hmono : ∀ x, g.hasNode x = true →
      (make_node g (some parent) sg scal nm ty oper).1.hasNode x = true := by
    intro x hx
    unfold Graph.hasNode at hx ⊢
    rw [hnodes, List.any_append, hx]
    rfl
  have hfresh : g.hasNode (make_node g (some parent) sg scal nm ty oper).2 = false := by
    rw [hlab]
    exact fresh_label_not_node hI.nodesBounded (Nat.le_refl _) nm sg
  have hself : (make_node g (some parent) sg scal nm ty oper).1.hasNode
      (make_node g (some parent) sg scal nm ty oper).2 = true := by
    unfold Graph.hasNode
    rw [hnodes, hlab, List.any_append]
    simp
  refine ⟨?_, ?_, ?_, by rw [hlab], hmono, hfresh, hself, by rw [hedges, hlab]⟩
  · unfold NodesIndexed
    rw [hnodes]
    exact nodesIndexedFrom_append hI _ _ (by simp) (by simp)
  · intro e he hty
    rw [hedges] at he
    rcases List.mem_append.mp he with hmem | hmem
    · exact hM e hmem hty
    · simp only [List.mem_singleton] at hmem
      rw [hmem]
      show parent.i < (⟨g.nodes.length, nm, sg⟩ : Label).i
      exact hI.lt_of_hasNode hp
  · intro e he
    rw [hedges] at he
    rcases List.mem_append.mp he with hmem | hmem
    · obtain ⟨h1, h2⟩ := hV e hmem
      exact ⟨hmono _ h1, hmono _ h2⟩
    · simp only [List.mem_singleton] at hmem
      rw [hmem]
      refine ⟨hmono _ hp, ?_⟩
      show (make_node g (some parent) sg scal nm ty oper).1.hasNode
        ⟨g.nodes.length, nm, sg⟩ = true
      rw [← hlab]
      exact hself

/-- The dependency-edge fold of `add_filter` / `add_operation` preserves
the builder invariants and leaves the node list untouched. -/
theorem depsFold_inv (n : Label) (ed : EdgeData) :
    ∀ (deps : List Label) (g : Graph),
    NodesIndexed g → EdgeMono g → EdgesValid g →
    g.hasNode n = true →
    (∀ d ∈ deps, g.hasNode d = true ∧ d.i < n.i) →
    NodesIndexed (deps.foldl (fun acc d => acc.addEdge d n ed) g) ∧
    EdgeMono (deps.foldl (fun acc d => acc.addEdge d n ed) g) ∧
    EdgesValid (deps.foldl (fun acc d => acc.addEdge d n ed) g) ∧
    (deps.foldl (fun acc d => acc.addEdge d n ed) g).nodes = g.nodes
  | [], g, hI, hM, hV, _, _ => ⟨hI, hM, hV, rfl⟩
  | d :: rest, g, hI, hM, hV, hn, hdeps => by
      obtain ⟨hd, hdi⟩ := hdeps d (List.mem_cons_self d rest)
      have hnodes1 : (g.addEdge d n ed).nodes = g.nodes :=
        Graph.nodes_addEdge_of_has ed hd hn
      have hI1 : NodesIndexed (g.addEdge d n ed) := NodesIndexed_congr hnodes1.symm hI
      have hM1 : EdgeMono (g.addEdge d n ed) := EdgeMono_addEdge_lt hM ed hdi
      have hV1 : EdgesValid (g.addEdge d n ed) := EdgesValid_addEdge hV d n ed
      have hn1 : (g.addEdge d n ed).hasNode n = true := by
        rw [Graph.hasNode_congr hnodes1]
        exact hn
      have hdeps1 : ∀ d' ∈ rest, (g.addEdge d n ed).hasNode d' = true ∧ d'.i < n.i := by
        intro d' hd'
        obtain ⟨ha, hb⟩ := hdeps d' (List.mem_cons_of_mem d hd')
        exact ⟨by rw [Graph.hasNode_congr hnodes1]; exact ha, hb⟩
      have := depsFold_inv n ed rest (g.addEdge d n ed) hI1 hM1 hV1 hn1 hdeps1
      simp only [List.foldl_cons]
      exact ⟨this.1, this.2.1, this.2.2.1, by rw [this.2.2.2, hnodes1]⟩

/-- Every valid builder call preserves the three builder invariants. -/
theorem applyOp_inv (g : Graph) (op : BOp) (hv : validOp g op = true)
    (hI : NodesIndexed g) (hM : EdgeMono g) (hV : EdgesValid g) :
    NodesIndexed (applyOp g op) ∧ EdgeMono (applyOp g op) ∧ EdgesValid (applyOp g op) := by
  cases op with
  | trav p path =>
      unfold validOp at hv
      simp only [Bool.and_eq_true, Option.isSome_iff_exists, Bool.not_eq_true'] at hv
      obtain ⟨⟨pd, hpd⟩, hpe⟩ := hv
      cases path with
      | nil => cases hpe
      | cons p0 rest =>
          have hp : g.hasNode p = true := Graph.hasNode_of_dataOf hpd
          have hred : applyOp g (.trav p (p0 :: rest)) =
              (make_node g (some p)
                (((p0 :: rest).zip ((p0 :: rest).drop 1)).foldl
                  (fun sg ab => sg.addEdge ab.1 ab.2) (pd.subgraph.addEdge pd.name p0))
                []
                (((p0 :: rest).drop ((p0 :: rest).length - 1)).foldl
                  (fun a b => a ++ b) "")
                "traversal"
                ("OPTIONAL MATCH " ++ String.intercalate "," (p0 :: rest))).1 := by
            unfold applyOp add_traversal
            dsimp only
            rw [hpd]
            rfl
          rw [hred]
          have mk := make_node_inv g p
            (((p0 :: rest).zip ((p0 :: rest).drop 1)).foldl
              (fun sg ab => sg.addEdge ab.1 ab.2) (pd.subgraph.addEdge pd.name p0))
            []
            (((p0 :: rest).drop ((p0 :: rest).length - 1)).foldl (fun a b => a ++ b) "")
            "traversal"
            ("OPTIONAL MATCH " ++ String.intercalate "," (p0 :: rest))
            hp hI hM hV
          exact ⟨mk.1, mk.2.1, mk.2.2.1⟩
  | filt p deps oper =>
      unfold validOp at hv
      simp only [Bool.and_eq_true, Option.isSome_iff_exists, List.all_eq_true] at hv
      obtain ⟨⟨pd, hpd⟩, hdeps⟩ := hv
      have hp : g.hasNode p = true := Graph.hasNode_of_dataOf hpd
      have hred : applyOp g (.filt p deps oper) =
          deps.foldl (fun acc d => acc.addEdge d
              (make_node g (some p) pd.subgraph [] pd.name "filter"
                ("WHERE " ++ oper)).2 ⟨some "dep", none, none, none⟩)
            (make_node g (some p) pd.subgraph [] pd.name "filter"
              ("WHERE " ++ oper)).1 := by
        unfold applyOp add_filter
        dsimp only
        rw [hpd]
        rfl
      rw [hred]
      have mk := make_node_inv g p pd.subgraph [] pd.name "filter"
        ("WHERE " ++ oper) hp hI hM hV
      have hargs : ∀ d ∈ deps,
          (make_node g (some p) pd.subgraph [] pd.name "filter"
            ("WHERE " ++ oper)).1.hasNode d = true ∧
          d.i < (make_node g (some p) pd.subgraph [] pd.name "filter"
            ("WHERE " ++ oper)).2.i := by
        intro d hd
        have hdg : g.hasNode d = true := by simpa using hdeps d hd
        refine ⟨mk.2.2.2.2.1 d hdg, ?_⟩
        rw [mk.2.2.2.1]
        exact hI.lt_of_hasNode hdg
      have hfold := depsFold_inv
        (make_node g (some p) pd.subgraph [] pd.name "filter" ("WHERE " ++ oper)).2
        ⟨some "dep", none, none, none⟩ deps
        (make_node g (some p) pd.subgraph [] pd.name "filter" ("WHERE " ++ oper)).1
        mk.1 mk.2.1 mk.2.2.1 mk.2.2.2.2.2.2.1 hargs
      exact ⟨hfold.1, hfold.2.1, hfold.2.2.1⟩
  | aggr p w oper =>
      unfold validOp at hv
      simp only [Bool.and_eq_true, Option.isSome_iff_exists] at hv
      obtain ⟨⟨pd, hpd⟩, ⟨wd, hwd⟩⟩ := hv
      have hp : g.hasNode p = true := Graph.hasNode_of_dataOf hpd
      have hw : g.hasNode w = true := Graph.hasNode_of_dataOf hwd
      have hred : applyOp g (.aggr p w oper) =
          (make_node g (some p) wd.subgraph (pd.scalars ++ [oper]) oper "aggr"
            oper).1.addEdge
            (make_node g (some p) wd.subgraph (pd.scalars ++ [oper]) oper "aggr" oper).2
            w ⟨some "wrt", none, none, some "dashed"⟩ := by
        unfold applyOp add_aggregation
        dsimp only
        rw [hwd, hpd]
        rfl
      rw [hred]
      obtain ⟨mkI, mkM, mkV, mkIdx, mkMono, mkFresh, mkSelf, mkEdges⟩ :=
        make_node_inv g p wd.subgraph (pd.scalars ++ [oper]) oper "aggr" oper hp hI hM hV
      have hnew : (make_node g (some p) wd.subgraph (pd.scalars ++ [oper]) oper "aggr"
          oper).1.hasEdge
          (make_node g (some p) wd.subgraph (pd.scalars ++ [oper]) oper "aggr" oper).2
          w = false := by
        apply Graph.hasEdge_false_of_edgeData_none
        apply Graph.edgeData_eq_none
        intro e he
        rw [mkEdges] at he
        rintro ⟨h1, _⟩
        rcases List.mem_append.mp he with hmem | hmem
        · have hc := (hV e hmem).1
          rw [h1, mkFresh] at hc
          cases hc
        · simp only [List.mem_singleton] at hmem
          subst hmem
          have hpn : p = (make_node g (some p) wd.subgraph (pd.scalars ++ [oper]) oper
              "aggr" oper).2 := h1
          rw [hpn] at hp
          rw [hp] at mkFresh
          cases mkFresh
      have hnodes : ((make_node g (some p) wd.subgraph (pd.scalars ++ [oper]) oper "aggr"
          oper).1.addEdge
          (make_node g (some p) wd.subgraph (pd.scalars ++ [oper]) oper "aggr" oper).2
          w ⟨some "wrt", none, none, some "dashed"⟩).nodes =
          (make_node g (some p) wd.subgraph (pd.scalars ++ [oper]) oper "aggr"
            oper).1.nodes :=
        Graph.nodes_addEdge_of_has _ mkSelf (mkMono w hw)
      refine ⟨?_, ?_, ?_⟩
      · unfold NodesIndexed
        rw [hnodes]
        exact mkI
      · exact EdgeMono_addEdge_wrt_new mkM hnew rfl
      · exact EdgesValid_addEdge mkV _ _ _
  | oper p deps o =>
      unfold validOp at hv
      simp only [Bool.and_eq_true, Option.isSome_iff_exists, List.all_eq_true] at hv
      obtain ⟨⟨pd, hpd⟩, hdeps⟩ := hv
      have hp : g.hasNode p = true := Graph.hasNode_of_dataOf hpd
      have hred : applyOp g (.oper p deps o) =
          deps.foldl (fun acc d => acc.addEdge d
              (make_node g (some p) pd.subgraph (pd.scalars ++ [o]) o "operation"
                ("WITH *, " ++ o ++ " as ...")).2 default)
            (make_node g (some p) pd.subgraph (pd.scalars ++ [o]) o "operation"
              ("WITH *, " ++ o ++ " as ...")).1 := by
        unfold applyOp add_operation
        dsimp only
        rw [hpd]
        rfl
      rw [hred]
      have mk := make_node_inv g p pd.subgraph (pd.scalars ++ [o]) o "operation"
        ("WITH *, " ++ o ++ " as ...") hp hI hM hV
      have hargs : ∀ d ∈ deps,
          (make_node g (some p) pd.subgraph (pd.scalars ++ [o]) o "operation"
            ("WITH *, " ++ o ++ " as ...")).1.hasNode d = true ∧
          d.i < (make_node g (some p) pd.subgraph (pd.scalars ++ [o]) o "operation"
            ("WITH *, " ++ o ++ " as ...")).2.i := by
        intro d hd
        have hdg : g.hasNode d = true := by simpa using hdeps d hd
        refine ⟨mk.2.2.2.2.1 d hdg, ?_⟩
        rw [mk.2.2.2.1]
        exact hI.lt_of_hasNode hdg
      have hfold := depsFold_inv
        (make_node g (some p) pd.subgraph (pd.scalars ++ [o]) o "operation"
          ("WITH *, " ++ o ++ " as ...")).2
        default deps
        (make_node g (some p) pd.subgraph (pd.scalars ++ [o]) o "operation"
          ("WITH *, " ++ o ++ " as ...")).1
        mk.1 mk.2.1 mk.2.2.1 mk.2.2.2.2.2.2.1 hargs
      exact ⟨hfold.1, hfold.2.1, hfold.2.2.1⟩


/-- Valid builder-call sequences preserve the three builder invariants. -/
theorem applyOps_inv :
    ∀ (ops : List BOp) (g : Graph), validOps g ops = true →
    NodesIndexed g → EdgeMono g → EdgesValid g →
    NodesIndexed (applyOps g ops) ∧ EdgeMono (applyOps g ops) ∧
      EdgesValid (applyOps g ops)
  | [], g, _, hI, hM, hV => ⟨hI, hM, hV⟩
  | op :: rest, g, hv, hI, hM, hV => by
      unfold validOps at hv
      simp only [Bool.and_eq_true] at hv
      have h1 := applyOp_inv g op hv.1 hI hM hV
      have h2 := applyOps_inv rest (applyOp g op) hv.2 h1.1 h1.2.1 h1.2.2
      simpa [applyOps] using h2

theorem fresh_indexed : NodesIndexed QueryGraph.fresh.1 :=
  ⟨rfl, ⟨_, rfl, rfl⟩, trivial⟩

theorem fresh_edgeMono : EdgeMono QueryGraph.fresh.1 := by
  intro e he _
  have h : QueryGraph.fresh.1.edges = [] := rfl
  rw [h] at he
  cases he

theorem fresh_edgesValid : EdgesValid QueryGraph.fresh.1 := by
  intro e he
  have h : QueryGraph.fresh.1.edges = [] := rfl
  rw [h] at he
  cases he

theorem DepPath.lt_of_edgeMono {g : Graph} (hm : EdgeMono g) :
    ∀ {a b : Label}, DepPath g a b → a.i < b.i := by
  intro a b hp
  induction hp with
  | single hmem hty => exact hm _ hmem hty
  | cons hmem hty _ ih => exact Nat.lt_trans (hm _ hmem hty) ih

theorem builtIdentities_range :
    ∀ {xs : List (Label × Option NodeData)} {n : Nat}, NodesIndexedFrom n xs →
    xs.filterMap (fun p => p.2.map (fun d => d.i)) = List.range' n xs.length
  | [], _, _ => rfl
  | (p :: rest), n, h => by
      obtain ⟨h1, ⟨d, hd, hdi⟩, h3⟩ := h
      have ih := builtIdentities_range h3
      simp only [List.filterMap_cons, hd, Option.map_some', List.length_cons]
      rw [ih, hdi]
      rfl

/-! ## C9: builder acyclicity -/

/-- C9 (counterexample): a builder-call sequence from a fresh graph whose
dependency graph contains a cycle.  The second call passes a dangling
dependency label that the third call's `make_node` then constructs for its
own new node (`i = number_of_nodes` collides because the implicit node
raised the count), producing the dependency edges
`filter → X-node` (traversal) and `X-node → filter` (dep) — a two-edge
cycle. -/
theorem builder_cycle_cx :
    DepPath (applyOps QueryGraph.fresh.1 cycleOps) filtLabel filtLabel := by
  have h1 : (filtLabel, cycleDep,
      (⟨some "traversal", some "traversal-OPTIONAL MATCH X", some "OPTIONAL MATCH X",
        none⟩ : EdgeData)) ∈ (applyOps QueryGraph.fresh.1 cycleOps).edges := by decide
  have h2 : (cycleDep, filtLabel, (⟨some "dep", none, none, none⟩ : EdgeData)) ∈
      (applyOps QueryGraph.fresh.1 cycleOps).edges := by decide
  exact DepPath.cons h1 (by decide) (DepPath.single h2 (by decide))

/-- C9 (amended): after any sequence of Graph Builder calls whose node
arguments all refer to existing nodes (no dangling dependency labels, so
the calls are the ones a front-end holding previously returned labels can
make), the dependency graph — edges of kind other than `'wrt'` — contains
no cycle: there is no non-empty dependency path from any node back to
itself. -/
theorem builder_acyclic (ops : List BOp)
    (h : validOps QueryGraph.fresh.1 ops = true) :
    ∀ v, ¬ DepPath (applyOps QueryGraph.fresh.1 ops) v v := by
  intro v hp
  have hinv := applyOps_inv ops QueryGraph.fresh.1 h fresh_indexed fresh_edgeMono
    fresh_edgesValid
  exact Nat.lt_irrefl _ (DepPath.lt_of_edgeMono hinv.2.1 hp)

/-- C9 (witness): the amended statement applied to a concrete valid
sequence at a concrete node. -/
theorem builder_acyclic_witness :
    validOps QueryGraph.fresh.1
      [.trav QueryGraph.fresh.2 ["OB"], .filt obLabel [QueryGraph.fresh.2] "f"] = true ∧
    ¬ DepPath (applyOps QueryGraph.fresh.1
      [.trav QueryGraph.fresh.2 ["OB"], .filt obLabel [QueryGraph.fresh.2] "f"])
      obLabel obLabel :=
  ⟨by decide,
    builder_acyclic [.trav QueryGraph.fresh.2 ["OB"], .filt obLabel [QueryGraph.fresh.2] "f"]
      (by decide) obLabel⟩

/-! ## C8: node identities -/

/-- C8 (counterexample): identities are reused once nodes have been
removed.  On the chain `data → OB → run → spec` (identities 0–3), removing
the OB node — exactly what compilation does to consumed nodes — drops
`number_of_nodes` to 3, so the next `make_node` assigns identity 3 again:
the still-live `spec` node and the newly created node share identity 3
while both are in the graph. -/
theorem identity_reuse_cx :
    (reuseD.1.dataOf reuseC.2).map (fun d => d.i) = some 3 ∧
    (reuseD.1.dataOf reuseD.2).map (fun d => d.i) = some 3 ∧
    reuseC.2 ≠ reuseD.2 ∧
    reuseD.1.hasNode reuseC.2 = true ∧ reuseD.1.hasNode reuseD.2 = true := by
  exact ⟨by decide, by decide, by decide, by decide, by decide⟩

/-- C8 (amended): as long as no node has been removed and every call's node
arguments exist (valid builder-only sequences), identities are exactly the
creation positions: all live identities are pairwise distinct and every
one is below `number_of_nodes`, so each next assignment
(`i = number_of_nodes`) exceeds all live identities — assigned at
creation, monotonically increasing, never reused.  After a removal the
counter `number_of_nodes` drops and identities are reused (see the
counterexample). -/
theorem builder_identity_fresh (ops : List BOp)
    (h : validOps QueryGraph.fresh.1 ops = true) :
    (builtIdentities (applyOps QueryGraph.fresh.1 ops)).Nodup ∧
    ∀ k ∈ builtIdentities (applyOps QueryGraph.fresh.1 ops),
      k < (applyOps QueryGraph.fresh.1 ops).numberOfNodes := by
  have hinv := applyOps_inv ops QueryGraph.fresh.1 h fresh_indexed fresh_edgeMono
    fresh_edgesValid
  have hr : builtIdentities (applyOps QueryGraph.fresh.1 ops) =
      List.range' 0 (applyOps QueryGraph.fresh.1 ops).nodes.length :=
    builtIdentities_range hinv.1
  rw [hr]
  constructor
  · exact List.nodup_range' _ _
  · intro k hk
    rw [List.mem_range'_1] at hk
    simpa [Graph.numberOfNodes] using hk.2

/-- C8 (witness): the amended statement applied to a concrete valid
sequence. -/
theorem builder_identity_fresh_witness :
    (builtIdentities (applyOps QueryGraph.fresh.1
      [.trav QueryGraph.fresh.2 ["OB"], .filt obLabel [QueryGraph.fresh.2] "f"])).Nodup ∧
    ∀ k ∈ builtIdentities (applyOps QueryGraph.fresh.1
      [.trav QueryGraph.fresh.2 ["OB"], .filt obLabel [QueryGraph.fresh.2] "f"]),
      k < (applyOps QueryGraph.fresh.1
        [.trav QueryGraph.fresh.2 ["OB"], .filt obLabel [QueryGraph.fresh.2] "f"]).numberOfNodes :=
  builder_identity_fresh
    [.trav QueryGraph.fresh.2 ["OB"], .filt obLabel [QueryGraph.fresh.2] "f"] (by decide)

/-! ## C6 and C10: the compiler's advance step -/

theorem hodScan_error_source {superG G : Graph} {node : Label} :
    ∀ {l : List Label} {e : PyErr},
    hodScan superG G node l = .error e → e = PyErr.keyError := by
  intro l
  induction l with
  | nil => intro e h; cases h
  | cons s rest ih =>
      intro e h
      unfold hodScan at h
      split at h
      · cases h; rfl
      · split at h
        · cases h; rfl
        · split at h
          · cases h
          · exact ih h

theorem saveLoop_error_source {wrt node agg : Label} {d : EdgeData} :
    ∀ {l : List Label} {g : Graph} {e : PyErr},
    saveLoop wrt node agg d g l = .error e →
    e = PyErr.keyError ∨ e = PyErr.networkXError := by
  intro l
  induction l with
  | nil => intro g e h; cases h
  | cons s rest ih =>
      intro g e h
      unfold saveLoop at h
      split at h
      · split at h
        · cases h; exact Or.inl rfl
        · split at h
          · split at h
            · cases h; exact Or.inl rfl
            · split at h
              · cases h; exact Or.inr rfl
              · exact ih h
      · exact ih h

theorem save_state_error_source {g : Graph} {wrt node : Label} {e : PyErr}
    (h : save_state g wrt node = .error e) :
    e = PyErr.keyError ∨ e = PyErr.networkXError := by
  unfold save_state at h
  split at h
  · cases h; exact Or.inl rfl
  · split at h
    · cases h; exact Or.inl rfl
    · split at h
      · cases h; exact Or.inl rfl
      · exact saveLoop_error_source h

theorem travSaveState_error_source {og : Graph} {Gv dagV backV : GView}
    {start output successor : Label} {agg : Bool} {e : PyErr}
    (h : travSaveState og Gv dagV backV start output successor agg = .error e) :
    e = PyErr.keyError ∨ e = PyErr.networkXError := by
  unfold travSaveState at h
  split at h
  · split at h
    · next heq =>
        cases h
        exact Or.inl (hodScan_error_source heq)
    · split at h
      · next heq =>
          cases h
          exact save_state_error_source heq
      · cases h
    · cases h
  · cases h

theorem travAdvance_error_source {og : Graph} {Gv dagV backV : GView}
    {start output node successor : Label} {agg : Bool} {e : PyErr}
    (h : travAdvance og Gv dagV backV start output node successor agg = .error e) :
    e = PyErr.keyError ∨ e = PyErr.networkXError := by
  unfold travAdvance at h
  split at h
  · next heq =>
      cases h
      exact travSaveState_error_source heq
  · split at h
    · cases h; exact Or.inr rfl
    · cases h

theorem travAdvance_ne_unfeasible (og : Graph) (Gv dagV backV : GView)
    (start output node successor : Label) (agg : Bool) :
    travAdvance og Gv dagV backV start output node successor agg ≠
      Except.error PyErr.unfeasible := by
  intro h
  rcases travAdvance_error_source h with h1 | h1 <;> cases h1

/-- C6 (theorem): at a loop step of the compiler whose current node has no
remaining branches to resolve (`get_branches` returned an empty list), the
step aborts with the fatal `NetworkXUnfeasible` internal-consistency error
exactly when the node has more than one live successor in the dependency
view after excluding `'load-state'` edges; with at most one such successor
this error is never raised at the step, whatever else the step does. -/
theorem traverse_fatal_iff (og : Graph) (Gv dagV backV : GView)
    (start output node : Label) (agg : Bool) (u : Bool)
    (hne : ¬ (evalView og Gv).edges = [])
    (hb : get_branches (evalView og dagV) (evalView og backV) node = .ok ([], u)) :
    travStep og Gv dagV backV start output node agg = .halt (.error .unfeasible) ↔
      1 < ((evalView og (mkSubgraphView og dagV (some "load-state") none none []
        none)).successors node).length := by
  unfold travStep
  rw [if_neg hne, hb]
  dsimp only
  constructor
  · intro h
    by_contra hc
    rw [if_neg hc] at h
    cases hsucc : successorsOf (evalView og backV) (evalView og dagV) node with
    | nil =>
        rw [hsucc] at h
        simp at h
    | cons w ws =>
        rw [hsucc] at h
        dsimp only at h
        cases hst : get_statement_data (evalView og Gv) node w agg with
        | none =>
            rw [hst] at h
            simp at h
        | some stmt =>
            rw [hst] at h
            cases hadv : travAdvance og Gv dagV backV start output node w agg with
            | error e =>
                rw [hadv] at h
                have he : e = PyErr.unfeasible := by
                  injection h with h2
                  injection h2
                rw [he] at hadv
                exact travAdvance_ne_unfeasible og Gv dagV backV start output node w agg hadv
            | ok r =>
                obtain ⟨og', Gv', dagV', backV'⟩ := r
                rw [hadv] at h
                simp at h
  · intro h
    rw [if_pos h]

/-- C6 (witness): the fatal error fires on the concrete graph with two
sibling traversals below the start node. -/
theorem traverse_fatal_iff_witness :
    travStep sibB.1 baseView
      (mkSubgraphView sibB.1 baseView (some "wrt") none none [] none)
      (mkSubgraphView sibB.1 baseView none (some "wrt") none [] none)
      sib0.2 sibB.2 sib0.2 false = .halt (.error .unfeasible) :=
  (traverse_fatal_iff sibB.1 baseView
    (mkSubgraphView sibB.1 baseView (some "wrt") none none [] none)
    (mkSubgraphView sibB.1 baseView none (some "wrt") none [] none)
    sib0.2 sibB.2 sib0.2 false true (by decide) (by decide)).mpr (by decide)

theorem travAdvance_consumes {og : Graph} {Gv dagV backV : GView}
    {start output node successor : Label} {agg : Bool}
    {og' : Graph} {Gv' dagV' backV' : GView}
    (ha : travAdvance og Gv dagV backV start output node successor agg =
      .ok (og', Gv', dagV', backV')) :
    og'.hasEdge node successor = false := by
  unfold travAdvance at ha
  split at ha
  · cases ha
  · split at ha
    · cases ha
    · next og2 heq =>
        cases ha
        exact Graph.hasEdge_false_of_edgeData_none (Graph.edgeData_removeEdge_self heq)

/-- C10 (theorem): in the compiler's advance step the successor list is the
`'wrt'` successors followed by the dependency successors and the first
element is taken: whenever the current node has a `'wrt'` successor `w`
(and the step is not the fatal-error case), the step emits the statement of
the edge `node → w` — before any dependency-graph edge — advances to `w`,
and the emitted `'wrt'` edge is consumed (removed from the working
graph). -/
theorem traverse_wrt_first (og : Graph) (Gv dagV backV : GView)
    (start output node : Label) (agg : Bool) (u : Bool)
    (w : Label) (ws : List Label) (stmt : Stmt)
    (og' : Graph) (Gv' dagV' backV' : GView)
    (hne : ¬ (evalView og Gv).edges = [])
    (hb : get_branches (evalView og dagV) (evalView og backV) node = .ok ([], u))
    (hcount : ¬ 1 < ((evalView og (mkSubgraphView og dagV (some "load-state") none none
      [] none)).successors node).length)
    (hw : (evalView og backV).successors node = w :: ws)
    (hs : get_statement_data (evalView og Gv) node w agg = some stmt)
    (ha : travAdvance og Gv dagV backV start output node w agg =
      .ok (og', Gv', dagV', backV')) :
    travStep og Gv dagV backV start output node agg =
      .advance stmt og' Gv' dagV' backV' w ∧
    og'.hasEdge node w = false := by
  constructor
  · unfold travStep
    rw [if_neg hne, hb]
    dsimp only
    rw [if_neg hcount]
    have hsucc : successorsOf (evalView og backV) (evalView og dagV) node =
        w :: (ws ++ (evalView og dagV).successors node) := by
      unfold successorsOf
      rw [hw]
      rfl
    rw [hsucc]
    dsimp only
    rw [hs]
    dsimp only
    rw [ha]
  · exact travAdvance_consumes ha

/-- C10 (witness): on the chain graph whose aggregation node has both the
outgoing `'wrt'` edge to its anchor and a dependency successor (a chained
operation), the step advances along the `'wrt'` edge first. -/
theorem traverse_wrt_first_witness :
    travStep chainOp.1 baseView
        (mkSubgraphView chainOp.1 baseView (some "wrt") none none [] none)
        (mkSubgraphView chainOp.1 baseView none (some "wrt") none [] none)
        chainAgg.2 chainOp.2 chainAgg.2 false =
      .advance (((evalView chainOp.1 baseView).nodes.find?
          (fun p => p.1 = chainAgg.2)).bind (fun p => p.2),
        ((evalView chainOp.1 baseView).nodes.find?
          (fun p => p.1 = chainOB.2)).bind (fun p => p.2),
        ⟨some "wrt", none, none, some "dashed"⟩, false)
        ((chainOp.1.removeEdge chainAgg.2 chainOB.2).getD chainOp.1)
        baseView
        (mkSubgraphView chainOp.1 baseView (some "wrt") none none [] none)
        (mkSubgraphView chainOp.1 baseView none (some "wrt") none [] none)
        chainOB.2 ∧
    ((chainOp.1.removeEdge chainAgg.2 chainOB.2).getD chainOp.1).hasEdge
      chainAgg.2 chainOB.2 = false :=
  traverse_wrt_first chainOp.1 baseView
    (mkSubgraphView chainOp.1 baseView (some "wrt") none none [] none)
    (mkSubgraphView chainOp.1 baseView none (some "wrt") none [] none)
    chainAgg.2 chainOp.2 chainAgg.2 false true chainOB.2 [] _ _ _ _ _
    (by decide) (by decide) (by decide) (by decide) (by decide) (by decide)

/-! ## C1: compilation copies the caller's graph and consumes the copy -/

/-- C1 (counterexample): compiling the chain `data → OB` to completion
emits one statement and removes the consumed edge from the compiler's
working copy, yet the caller's graph — the third component returned, the
object the caller passed in — still contains that very edge afterwards,
because `traverse_query_graph` begins with `original_graph = G.copy()` and
every removal targets the copy. -/
theorem traverse_not_destructive_cx :
    (traverse_query_graph chainOB.1 chainOB.2 QueryGraph.fresh.2 6).map
        (fun r => (r.1.length, r.2.2.hasEdge QueryGraph.fresh.2 chainOB.2,
          r.2.1.hasEdge QueryGraph.fresh.2 chainOB.2,
          decide (r.2.2 = chainOB.1))) =
      .ok (1, true, false, true) := by decide

/-- C1 (amended): compilation is destructive only on a private copy: the
first act of `traverse_query_graph` is `original_graph = G.copy()`, every
node/edge removal hits that copy, and the caller's instance is returned
unchanged, so the same graph CAN be compiled again — a second run over the
caller's instance returns the identical statement sequence and final
working state; no duplication by the caller is needed. -/
theorem traverse_copies_caller (G : Graph) (output node : Label) (fuel : Nat)
    (sts : List Stmt) (og' caller : Graph)
    (h : traverse_query_graph G output node fuel = .ok (sts, og', caller)) :
    caller = G ∧
    traverse_query_graph caller output node fuel = .ok (sts, og', caller) := by
  unfold traverse_query_graph at h ⊢
  dsimp only at h ⊢
  split at h
  · cases h
  · next sts2 og2 heq =>
      injection h with h1
      injection h1 with hsts h2
      injection h2 with hog hcaller
      subst hcaller
      subst hsts
      subst hog
      exact ⟨rfl, by rw [heq]⟩

/-- C1 (witness): the amended statement applied to the concrete chain
run. -/
theorem traverse_copies_caller_witness :
    chainOB.1 = chainOB.1 ∧
    traverse_query_graph chainOB.1 chainOB.2 QueryGraph.fresh.2 6 =
      .ok (chainRunStmts, chainRunOg, chainOB.1) :=
  traverse_copies_caller chainOB.1 chainOB.2 QueryGraph.fresh.2 6
    chainRunStmts chainRunOg chainOB.1 (by decide)

/-! ## C5: supporting lemmas about edge-key uniqueness and graph shapes -/

theorem EdgesNodup_addEdge {g : Graph} (hn : EdgesNodup g) (a b : Label)
    (d : EdgeData) : EdgesNodup (g.addEdge a b d) := by
  unfold Graph.addEdge
  dsimp only
  have hedges : ((g.ensureNode a).ensureNode b).edges = g.edges := by
    rw [Graph.edges_ensureNode, Graph.edges_ensureNode]
  split
  · unfold EdgesNodup
    dsimp only
    rw [hedges]
    refine List.Pairwise.map _ ?_ hn
    intro e1 e2 h
    intro hc
    apply h
    by_cases h1 : e1.1 = a ∧ e1.2.1 = b <;> by_cases h2 : e2.1 = a ∧ e2.2.1 = b <;>
      simp only [h1, h2, if_pos, if_neg, Prod.mk.injEq] at hc ⊢ <;>
      simp_all
  · next hne =>
      unfold EdgesNodup
      dsimp only
      rw [hedges]
      rw [List.pairwise_append]
      have hkey : ∀ e ∈ g.edges, ¬(e.1 = a ∧ e.2.1 = b) := by
        intro e he hc
        have hfind : (g.edges.find? (fun e => e.1 = a ∧ e.2.1 = b)).isSome := by
          rw [List.find?_isSome]
          exact ⟨e, he, by simpa using hc⟩
        have hhe : g.hasEdge a b = true := by
          unfold Graph.hasEdge Graph.edgeData
          cases hf : g.edges.find? (fun e => e.1 = a ∧ e.2.1 = b)
          · rw [hf] at hfind; cases hfind
          · rfl
        exact hne (by rw [Graph.hasEdge_congr hedges]; exact hhe)
      exact ⟨hn, List.pairwise_singleton _ _, by
        intro e1 h1 e2 h2
        simp only [List.mem_singleton] at h2
        subst h2
        intro hc
        apply hkey e1 h1
        simp only [Prod.mk.injEq] at hc
        exact ⟨hc.1, hc.2⟩⟩

theorem EdgesNodup_removeEdge {g g' : Graph} (hn : EdgesNodup g)
    (h : g.removeEdge a b = some g') : EdgesNodup g' := by
  unfold Graph.removeEdge at h
  split at h
  · cases h
    exact List.Pairwise.sublist (List.filter_sublist _) hn
  · cases h

theorem EdgesNodup_addNodeAttrs {g : Graph} (hn : EdgesNodup g) (l : Label)
    (d : NodeData) : EdgesNodup (g.addNodeAttrs l d) := by
  unfold EdgesNodup
  rw [Graph.edges_addNodeAttrs]
  exact hn

theorem EdgesNodup_of_eq_append {g g' : Graph}
    (hg : g'.edges = g.edges ++ tail)
    (hn : EdgesNodup g')
    : EdgesNodup g := by
  unfold EdgesNodup at hn
  rw [hg] at hn
  exact (List.pairwise_append.mp hn).1

theorem keys_pairwise_targets_nodup {node : Label} :
    ∀ l : List (Label × Label × EdgeData),
    l.Pairwise (fun e1 e2 => (e1.1, e1.2.1) ≠ (e2.1, e2.2.1)) →
    (∀ e ∈ l, e.1 = node) →
    (l.map (fun e => e.2.1)).Nodup := by
  intro l
  induction l with
  | nil => intro _ _; exact List.nodup_nil
  | cons e rest ih =>
      intro hp hs
      rw [List.map_cons, List.nodup_cons]
      obtain ⟨h1, h2⟩ := List.pairwise_cons.mp hp
      refine ⟨?_, ih h2 (fun e' he' => hs e' (List.mem_cons_of_mem _ he'))⟩
      intro hmem
      rw [List.mem_map] at hmem
      obtain ⟨e', he', heq⟩ := hmem
      apply h1 e' he'
      have hse : e.1 = node := hs e (List.mem_cons_self _ _)
      have hse' : e'.1 = node := hs e' (List.mem_cons_of_mem _ he')
      rw [Prod.mk.injEq]
      exact ⟨hse.trans hse'.symm, heq.symm⟩

theorem keys_pairwise_sources_nodup {node : Label} :
    ∀ l : List (Label × Label × EdgeData),
    l.Pairwise (fun e1 e2 => (e1.1, e1.2.1) ≠ (e2.1, e2.2.1)) →
    (∀ e ∈ l, e.2.1 = node) →
    (l.map (fun e => e.1)).Nodup := by
  intro l
  induction l with
  | nil => intro _ _; exact List.nodup_nil
  | cons e rest ih =>
      intro hp hs
      rw [List.map_cons, List.nodup_cons]
      obtain ⟨h1, h2⟩ := List.pairwise_cons.mp hp
      refine ⟨?_, ih h2 (fun e' he' => hs e' (List.mem_cons_of_mem _ he'))⟩
      intro hmem
      rw [List.mem_map] at hmem
      obtain ⟨e', he', heq⟩ := hmem
      apply h1 e' he'
      have hse : e.2.1 = node := hs e (List.mem_cons_self _ _)
      have hse' : e'.2.1 = node := hs e' (List.mem_cons_of_mem _ he')
      rw [Prod.mk.injEq]
      exact ⟨heq.symm, hse.trans hse'.symm⟩

theorem edges_filter_pairwise {g : Graph} (hn : EdgesNodup g)
    (p : Label × Label × EdgeData → Bool) :
    (g.edges.filter p).Pairwise (fun e1 e2 => (e1.1, e1.2.1) ≠ (e2.1, e2.2.1)) :=
  List.Pairwise.sublist (List.filter_sublist _) hn

/-- Effect of the out-edge re-attachment loop of
`preserve_state_for_subqueries` on an edge-list whose entries all leave
`node`, hold their current attribute records, and have pairwise-distinct
targets none of which is `unwind`: every processed edge (except the
skipped one to the checkpoint) reappears at the unwind node with the same
record and disappears from `node`, and nothing else changes. -/
theorem moveOutEdges_spec {cp unw node : Label} (hun : unw ≠ node) :
    ∀ (L : List (Label × Label × EdgeData)) (h : Graph),
    (∀ e ∈ L, h.edgeData node e.2.1 = some e.2.2) →
    ((L.map (fun e => e.2.1)).Nodup) →
    (∀ e ∈ L, e.2.1 ≠ unw) →
    (∀ e ∈ L, h.edgeData unw e.2.1 = none) →
    ∃ h', moveOutEdges cp unw node h L = .ok h' ∧
      (∀ e ∈ L, e.2.1 ≠ cp →
        h'.edgeData unw e.2.1 = some e.2.2 ∧ h'.edgeData node e.2.1 = none) ∧
      (∀ x y, x ≠ node → x ≠ unw → h'.edgeData x y = h.edgeData x y) ∧
      (∀ y, (y = cp ∨ ∀ e ∈ L, e.2.1 ≠ y) →
        h'.edgeData node y = h.edgeData node y) ∧
      (∀ y, (∀ e ∈ L, e.2.1 ≠ y) → h'.edgeData unw y = h.edgeData unw y) := by
  intro L
  induction L with
  | nil =>
      intro h _ _ _ _
      refine ⟨h, rfl, ?_, ?_, ?_, ?_⟩
      · intro e he
        cases he
      · intro x y _ _
        rfl
      · intro y _
        rfl
      · intro y _
        rfl
  | cons e rest ih =>
      intro h hdata hnodup hnu hwout
      have hnc := List.nodup_cons.mp
        (show (e.2.1 :: rest.map (fun e => e.2.1)).Nodup by simpa using hnodup)
      have hntne : ∀ e' ∈ rest, e'.2.1 ≠ e.2.1 := by
        intro e' he' hc
        exact hnc.1 (by rw [← hc]; exact List.mem_map.mpr ⟨e', he', rfl⟩)
      by_cases ht : e.2.1 ≠ cp
      · have hd : h.edgeData node e.2.1 = some e.2.2 :=
          hdata e (List.mem_cons_self _ _)
        have hwnone : h.edgeData unw e.2.1 = none := hwout e (List.mem_cons_self _ _)
        have hdd : (h.addEdge unw e.2.1 e.2.2).edgeData node e.2.1 = some e.2.2 := by
          have s2 : (h.addEdge unw e.2.1 e.2.2).edgeData node e.2.1 =
              h.edgeData node e.2.1 :=
            Graph.edgeData_addEdge_other _ (fun hc => hun hc.1.symm)
          rw [s2]
          exact hd
        obtain ⟨h2, hrem⟩ := Graph.removeEdge_isSome_of_edgeData hdd
        have hdata2 : ∀ e' ∈ rest, h2.edgeData node e'.2.1 = some e'.2.2 := by
          intro e' he'
          have s1 : h2.edgeData node e'.2.1 =
              (h.addEdge unw e.2.1 e.2.2).edgeData node e'.2.1 :=
            Graph.edgeData_removeEdge_other hrem (fun hc => hntne e' he' hc.2)
          have s2 : (h.addEdge unw e.2.1 e.2.2).edgeData node e'.2.1 =
              h.edgeData node e'.2.1 :=
            Graph.edgeData_addEdge_other _ (fun hc => hun hc.1.symm)
          rw [s1, s2]
          exact hdata e' (List.mem_cons_of_mem _ he')
        have hwout2 : ∀ e' ∈ rest, h2.edgeData unw e'.2.1 = none := by
          intro e' he'
          have s1 : h2.edgeData unw e'.2.1 =
              (h.addEdge unw e.2.1 e.2.2).edgeData unw e'.2.1 :=
            Graph.edgeData_removeEdge_other hrem (fun hc => hun hc.1)
          have s2 : (h.addEdge unw e.2.1 e.2.2).edgeData unw e'.2.1 =
              h.edgeData unw e'.2.1 :=
            Graph.edgeData_addEdge_other _ (fun hc => hntne e' he' hc.2)
          rw [s1, s2]
          exact hwout e' (List.mem_cons_of_mem _ he')
        obtain ⟨h', hrun, hc1, hc3, hc4, hc5⟩ := ih h2 hdata2 hnc.2
          (fun e' he' => hnu e' (List.mem_cons_of_mem _ he')) hwout2
        refine ⟨h', ?_, ?_, ?_, ?_, ?_⟩
        · unfold moveOutEdges
          rw [if_pos ht, hd]
          dsimp only
          rw [hrem]
          exact hrun
        · intro e' he' hcp
          rcases List.mem_cons.mp he' with heq | hm
          · subst heq
            constructor
            · have s0 : h'.edgeData unw e'.2.1 = h2.edgeData unw e'.2.1 :=
                hc5 e'.2.1 hntne
              have s1 : h2.edgeData unw e'.2.1 =
                  (h.addEdge unw e'.2.1 e'.2.2).edgeData unw e'.2.1 :=
                Graph.edgeData_removeEdge_other hrem (fun hc => hun hc.1)
              rw [s0, s1]
              exact Graph.edgeData_addEdge_self _
                (Graph.hasEdge_false_of_edgeData_none hwnone)
            · have s0 : h'.edgeData node e'.2.1 = h2.edgeData node e'.2.1 :=
                hc4 e'.2.1 (Or.inr hntne)
              rw [s0]
              exact Graph.edgeData_removeEdge_self hrem
          · exact hc1 e' hm hcp
        · intro x y hxn hxu
          have s0 : h'.edgeData x y = h2.edgeData x y := hc3 x y hxn hxu
          have s1 : h2.edgeData x y = (h.addEdge unw e.2.1 e.2.2).edgeData x y :=
            Graph.edgeData_removeEdge_other hrem (fun hc => hxn hc.1)
          have s2 : (h.addEdge unw e.2.1 e.2.2).edgeData x y = h.edgeData x y :=
            Graph.edgeData_addEdge_other _ (fun hc => hxu hc.1)
          rw [s0, s1, s2]
        · intro y hy
          have hyt : y ≠ e.2.1 := by
            rcases hy with hy | hy
            · rw [hy]
              exact fun hc => ht hc.symm
            · exact fun hc => hy e (List.mem_cons_self _ _) hc.symm
          have hy' : y = cp ∨ ∀ e' ∈ rest, e'.2.1 ≠ y := by
            rcases hy with hy | hy
            · exact Or.inl hy
            · exact Or.inr (fun e' he' => hy e' (List.mem_cons_of_mem _ he'))
          have s0 : h'.edgeData node y = h2.edgeData node y := hc4 y hy'
          have s1 : h2.edgeData node y = (h.addEdge unw e.2.1 e.2.2).edgeData node y :=
            Graph.edgeData_removeEdge_other hrem (fun hc => hyt hc.2)
          have s2 : (h.addEdge unw e.2.1 e.2.2).edgeData node y = h.edgeData node y :=
            Graph.edgeData_addEdge_other _ (fun hc => hun hc.1.symm)
          rw [s0, s1, s2]
        · intro y hy
          have hyt : y ≠ e.2.1 :=
            fun hc => hy e (List.mem_cons_self _ _) hc.symm
          have s0 : h'.edgeData unw y = h2.edgeData unw y :=
            hc5 y (fun e' he' => hy e' (List.mem_cons_of_mem _ he'))
          have s1 : h2.edgeData unw y = (h.addEdge unw e.2.1 e.2.2).edgeData unw y :=
            Graph.edgeData_removeEdge_other hrem (fun hc => hun hc.1)
          have s2 : (h.addEdge unw e.2.1 e.2.2).edgeData unw y = h.edgeData unw y :=
            Graph.edgeData_addEdge_other _ (fun hc => hyt hc.2)
          rw [s0, s1, s2]
      · push_neg at ht
        obtain ⟨h', hrun, hc1, hc3, hc4, hc5⟩ := ih h
          (fun e' he' => hdata e' (List.mem_cons_of_mem _ he')) hnc.2
          (fun e' he' => hnu e' (List.mem_cons_of_mem _ he'))
          (fun e' he' => hwout e' (List.mem_cons_of_mem _ he'))
        refine ⟨h', ?_, ?_, hc3, ?_, ?_⟩
        · unfold moveOutEdges
          rw [if_neg (by simpa using ht)]
          exact hrun
        · intro e' he' hcp
          rcases List.mem_cons.mp he' with heq | hm
          · subst heq
            exact absurd ht hcp
          · exact hc1 e' hm hcp
        · intro y hy
          apply hc4
          rcases hy with hy | hy
          · exact Or.inl hy
          · exact Or.inr (fun e' he' => hy e' (List.mem_cons_of_mem _ he'))
        · intro y hy
          exact hc5 y (fun e' he' => hy e' (List.mem_cons_of_mem _ he'))

/-- Effect of the `'wrt'` in-edge re-attachment loop of
`preserve_state_for_subqueries` on an edge-list whose entries all point
into `node`, hold their current attribute records, and have
pairwise-distinct sources: every processed edge is re-pointed into the
unwind node (with its record, provided no parallel edge was already
there), every processed edge disappears from `node`, and edges from
untouched sources are unchanged. -/
theorem moveWrtInEdges_spec {unw node : Label} (hun : node ≠ unw) :
    ∀ (M : List (Label × Label × EdgeData)) (h : Graph),
    (∀ e ∈ M, h.edgeData e.1 node = some e.2.2) →
    ((M.map (fun e => e.1)).Nodup) →
    ∃ h', moveWrtInEdges unw node h M = .ok h' ∧
      (∀ e ∈ M, h.edgeData e.1 unw = none → h'.edgeData e.1 unw = some e.2.2) ∧
      (∀ e ∈ M, h'.edgeData e.1 node = none) ∧
      (∀ x y, (∀ e ∈ M, e.1 ≠ x) → h'.edgeData x y = h.edgeData x y) := by
  intro M
  induction M with
  | nil =>
      intro h _ _
      refine ⟨h, rfl, ?_, ?_, ?_⟩
      · intro e he
        cases he
      · intro e he
        cases he
      · intro x y _
        rfl
  | cons e rest ih =>
      intro h hdata hnodup
      have hnc := List.nodup_cons.mp
        (show (e.1 :: rest.map (fun e => e.1)).Nodup by simpa using hnodup)
      have hnse : ∀ e' ∈ rest, e'.1 ≠ e.1 := by
        intro e' he' hc
        exact hnc.1 (by rw [← hc]; exact List.mem_map.mpr ⟨e', he', rfl⟩)
      have hd : h.edgeData e.1 node = some e.2.2 := hdata e (List.mem_cons_self _ _)
      have hdd : (h.addEdge e.1 unw e.2.2).edgeData e.1 node = some e.2.2 := by
        have s2 : (h.addEdge e.1 unw e.2.2).edgeData e.1 node = h.edgeData e.1 node :=
          Graph.edgeData_addEdge_other _ (fun hc => hun hc.2)
        rw [s2]
        exact hd
      obtain ⟨h2, hrem⟩ := Graph.removeEdge_isSome_of_edgeData hdd
      have hdata2 : ∀ e' ∈ rest, h2.edgeData e'.1 node = some e'.2.2 := by
        intro e' he'
        have s1 : h2.edgeData e'.1 node = (h.addEdge e.1 unw e.2.2).edgeData e'.1 node :=
          Graph.edgeData_removeEdge_other hrem (fun hc => hnse e' he' hc.1)
        have s2 : (h.addEdge e.1 unw e.2.2).edgeData e'.1 node = h.edgeData e'.1 node :=
          Graph.edgeData_addEdge_other _ (fun hc => hnse e' he' hc.1)
        rw [s1, s2]
        exact hdata e' (List.mem_cons_of_mem _ he')
      obtain ⟨h', hrun, hc1, hc2, hc3⟩ := ih h2 hdata2 hnc.2
      refine ⟨h', ?_, ?_, ?_, ?_⟩
      · unfold moveWrtInEdges
        rw [hd]
        dsimp only
        rw [hrem]
        exact hrun
      · intro e' he' hwnone
        rcases List.mem_cons.mp he' with heq | hm
        · subst heq
          have s0 : h'.edgeData e'.1 unw = h2.edgeData e'.1 unw := hc3 e'.1 unw hnse
          have s1 : h2.edgeData e'.1 unw = (h.addEdge e'.1 unw e'.2.2).edgeData e'.1 unw :=
            Graph.edgeData_removeEdge_other hrem (fun hc => hun hc.2.symm)
          rw [s0, s1]
          exact Graph.edgeData_addEdge_self _
            (Graph.hasEdge_false_of_edgeData_none hwnone)
        · have hw2 : h2.edgeData e'.1 unw = none := by
            have s1 : h2.edgeData e'.1 unw = (h.addEdge e.1 unw e.2.2).edgeData e'.1 unw :=
              Graph.edgeData_removeEdge_other hrem (fun hc => hnse e' hm hc.1)
            have s2 : (h.addEdge e.1 unw e.2.2).edgeData e'.1 unw = h.edgeData e'.1 unw :=
              Graph.edgeData_addEdge_other _ (fun hc => hnse e' hm hc.1)
            rw [s1, s2]
            exact hwnone
          exact hc1 e' hm hw2
      · intro e' he'
        rcases List.mem_cons.mp he' with heq | hm
        · subst heq
          have s0 : h'.edgeData e'.1 node = h2.edgeData e'.1 node := hc3 e'.1 node hnse
          rw [s0]
          exact Graph.edgeData_removeEdge_self hrem
        · exact hc2 e' hm
      · intro x y hx
        have hex : e.1 ≠ x := hx e (List.mem_cons_self _ _)
        have s0 : h'.edgeData x y = h2.edgeData x y :=
          hc3 x y (fun e' he' => hx e' (List.mem_cons_of_mem _ he'))
        have s1 : h2.edgeData x y = (h.addEdge e.1 unw e.2.2).edgeData x y :=
          Graph.edgeData_removeEdge_other hrem (fun hc => hex hc.1.symm)
        have s2 : (h.addEdge e.1 unw e.2.2).edgeData x y = h.edgeData x y :=
          Graph.edgeData_addEdge_other _ (fun hc => hex hc.1.symm)
        rw [s0, s1, s2]

/-- The out-edge loop preserves key-uniqueness of the edge list. -/
theorem EdgesNodup_moveOutEdges {cp unw node : Label} :
    ∀ (L : List (Label × Label × EdgeData)) (h h' : Graph),
    moveOutEdges cp unw node h L = .ok h' → EdgesNodup h → EdgesNodup h' := by
  intro L
  induction L with
  | nil =>
      intro h h' hrun hn
      unfold moveOutEdges at hrun
      cases hrun
      exact hn
  | cons e rest ih =>
      intro h h' hrun hn
      unfold moveOutEdges at hrun
      split at hrun
      · split at hrun
        · cases hrun
        · split at hrun
          · cases hrun
          · next g2 hrem =>
              exact ih g2 h' hrun (EdgesNodup_removeEdge (EdgesNodup_addEdge hn _ _ _) hrem)
      · exact ih h h' hrun hn

theorem NodesBounded.index_lt_of_hasNode {g : Graph} (hB : NodesBounded g) {x : Label}
    (hx : g.hasNode x = true) : x.i < g.nodes.length := by
  unfold Graph.hasNode at hx
  simp only [List.any_eq_true, decide_eq_true_eq] at hx
  obtain ⟨p, hp, he⟩ := hx
  have := hB p hp
  rw [he] at this
  exact this

theorem Label.ne_of_ne_index {x y : Label} (h : x.i ≠ y.i) : x ≠ y :=
  fun he => h (congrArg Label.i he)

theorem Graph.hasNode_of_nodes_append {g g' : Graph}
    {L : List (Label × Option NodeData)} (h : g'.nodes = g.nodes ++ L) {x : Label}
    (hx : g.hasNode x = true) : g'.hasNode x = true := by
  unfold Graph.hasNode at hx ⊢
  rw [h, List.any_append, hx]
  rfl

theorem Graph.hasNode_of_nodes_append_entry {g g' : Graph} {x : Label}
    {d : Option NodeData} (h : g'.nodes = g.nodes ++ [(x, d)]) :
    g'.hasNode x = true := by
  unfold Graph.hasNode
  rw [h, List.any_append]
  simp

theorem NodesBounded_of_nodes_append_fresh {g g' : Graph} {nm : String} {sg : SubG}
    {d : Option NodeData}
    (h : g'.nodes = g.nodes ++ [(⟨g.nodes.length, nm, sg⟩, d)])
    (hB : NodesBounded g) : NodesBounded g' := by
  intro p hp
  unfold Graph.numberOfNodes
  rw [h] at hp
  rw [h, List.length_append]
  rcases List.mem_append.mp hp with hm | hm
  · have := hB p hm
    unfold Graph.numberOfNodes at this
    omega
  · simp only [List.mem_singleton] at hm
    rw [hm]
    simp

theorem EdgesValid_of_append {g g' : Graph}
    {L : List (Label × Option NodeData)} {E : List (Label × Label × EdgeData)}
    (hn : g'.nodes = g.nodes ++ L) (he : g'.edges = g.edges ++ E)
    (hV : EdgesValid g)
    (hE : ∀ e ∈ E, g'.hasNode e.1 = true ∧ g'.hasNode e.2.1 = true) :
    EdgesValid g' := by
  intro e hm
  rw [he] at hm
  rcases List.mem_append.mp hm with hm' | hm'
  · obtain ⟨h1, h2⟩ := hV e hm'
    exact ⟨Graph.hasNode_of_nodes_append hn h1, Graph.hasNode_of_nodes_append hn h2⟩
  · exact hE e hm'

theorem Graph.edgeData_append_left {g g' : Graph} {E : List (Label × Label × EdgeData)}
    (h : g'.edges = g.edges ++ E) {x y : Label} {d : EdgeData}
    (hd : g.edgeData x y = some d) : g'.edgeData x y = some d := by
  unfold Graph.edgeData at hd ⊢
  rw [h, List.find?_append]
  cases hf : g.edges.find? (fun e => e.1 = x ∧ e.2.1 = y) with
  | none => rw [hf] at hd; cases hd
  | some e => rw [hf] at hd; rw [Option.or]; exact hd

theorem Graph.edgeData_append_none {g g' : Graph} {E : List (Label × Label × EdgeData)}
    (h : g'.edges = g.edges ++ E) {x y : Label}
    (hd : g.edgeData x y = none)
    (hE : ∀ e ∈ E, ¬(e.1 = x ∧ e.2.1 = y)) : g'.edgeData x y = none := by
  apply Graph.edgeData_eq_none
  intro e hm
  rw [h] at hm
  rcases List.mem_append.mp hm with hm' | hm'
  · intro hc
    have : g.edges.find? (fun e => e.1 = x ∧ e.2.1 = y) = none := by
      unfold Graph.edgeData at hd
      cases hf : g.edges.find? (fun e => e.1 = x ∧ e.2.1 = y) with
      | none => rfl
      | some e' => rw [hf] at hd; cases hd
    rw [List.find?_eq_none] at this
    exact this e hm' (by simpa using hc)
  · exact hE e hm'

/-- Full shape of a successful `add_aggregation` call on a well-formed
graph: the checkpoint label, the node list and the edge list of the
result, plus the result as an explicit composition of primitive graph
operations. -/
theorem add_aggregation_shape {g g1 : Graph} {parent wrt cp : Label} {oper ty : String}
    (hB : NodesBounded g) (hV : EdgesValid g)
    (hagg : add_aggregation g parent wrt oper ty = some (g1, cp)) :
    ∃ wd pd : NodeData,
      g.dataOf wrt = some wd ∧ g.dataOf parent = some pd ∧
      cp = ⟨g.nodes.length, oper, wd.subgraph⟩ ∧
      g1 = ((g.addNodeAttrs cp ⟨wd.subgraph, pd.scalars ++ [oper], oper,
              g.nodes.length⟩).addEdge parent cp
            ⟨some ty, some (ty ++ "-" ++ oper), some oper, none⟩).addEdge cp wrt
            ⟨some "wrt", none, none, some "dashed"⟩ ∧
      g1.nodes = g.nodes ++
        [(cp, some ⟨wd.subgraph, pd.scalars ++ [oper], oper, g.nodes.length⟩)] ∧
      g1.edges = g.edges ++
        [(parent, cp, ⟨some ty, some (ty ++ "-" ++ oper), some oper, none⟩),
         (cp, wrt, ⟨some "wrt", none, none, some "dashed"⟩)] := by
  cases hwd : g.dataOf wrt with
  | none =>
      unfold add_aggregation at hagg
      rw [hwd] at hagg
      simp at hagg
  | some wd =>
  cases hpd : g.dataOf parent with
  | none =>
      unfold add_aggregation at hagg
      rw [hwd, hpd] at hagg
      simp at hagg
  | some pd =>
  have hwn : g.hasNode wrt = true := Graph.hasNode_of_dataOf hwd
  have hpn : g.hasNode parent = true := Graph.hasNode_of_dataOf hpd
  have hnfresh : g.hasNode ⟨g.numberOfNodes, oper, wd.subgraph⟩ = false :=
    fresh_label_not_node hB (Nat.le_refl _) oper wd.subgraph
  set n : Label := ⟨g.numberOfNodes, oper, wd.subgraph⟩ with hn
  have hne_parent : parent ≠ n := hasNode_ne_of_true_false hpn hnfresh
  have hincident := no_incident_edges hV hnfresh
  set d0 : NodeData := ⟨wd.subgraph, pd.scalars ++ [oper], oper, g.numberOfNodes⟩ with hd0
  set e1 : EdgeData := ⟨some ty, some (ty ++ "-" ++ oper), some oper, none⟩ with he1
  set e2 : EdgeData := ⟨some "wrt", none, none, some "dashed"⟩ with he2
  have hg2edges : (g.addNodeAttrs n d0).edges = g.edges := Graph.edges_addNodeAttrs g n d0
  have hg2nodes : (g.addNodeAttrs n d0).nodes = g.nodes ++ [(n, some d0)] :=
    Graph.nodes_addNodeAttrs_fresh d0 hnfresh
  have hhe2 : (g.addNodeAttrs n d0).hasEdge parent n = false := by
    apply Graph.hasEdge_false_of_edgeData_none
    apply Graph.edgeData_eq_none
    intro e he
    rw [hg2edges] at he
    rintro ⟨_, h2⟩
    exact (hincident e he).2 h2
  have hg3edges : ((g.addNodeAttrs n d0).addEdge parent n e1).edges =
      g.edges ++ [(parent, n, e1)] := by
    rw [Graph.addEdge_edges_of_new e1 hhe2, hg2edges]
  have hg3nodes : ((g.addNodeAttrs n d0).addEdge parent n e1).nodes =
      g.nodes ++ [(n, some d0)] := by
    rw [Graph.nodes_addEdge_of_has e1 (Graph.hasNode_addNodeAttrs_mono _ _ hpn)
      (Graph.hasNode_addNodeAttrs_self _ _ _), hg2nodes]
  have hhe3 : ((g.addNodeAttrs n d0).addEdge parent n e1).hasEdge n wrt = false := by
    apply Graph.hasEdge_false_of_edgeData_none
    apply Graph.edgeData_eq_none
    intro e he
    rw [hg3edges] at he
    rintro ⟨h1, _⟩
    rcases List.mem_append.mp he with hmem | hmem
    · exact (hincident e hmem).1 h1
    · simp only [List.mem_singleton] at hmem
      rw [hmem] at h1
      exact hne_parent h1
  have hg4edges : (((g.addNodeAttrs n d0).addEdge parent n e1).addEdge n wrt e2).edges =
      g.edges ++ [(parent, n, e1)] ++ [(n, wrt, e2)] := by
    rw [Graph.addEdge_edges_of_new e2 hhe3, hg3edges]
  have hg4nodes : (((g.addNodeAttrs n d0).addEdge parent n e1).addEdge n wrt e2).nodes =
      g.nodes ++ [(n, some d0)] := by
    rw [Graph.nodes_addEdge_of_has e2
      (Graph.hasNode_addEdge_mono _ _ _ (Graph.hasNode_addNodeAttrs_self _ _ _))
      (Graph.hasNode_addEdge_mono _ _ _ (Graph.hasNode_addNodeAttrs_mono _ _ hwn)),
      hg3nodes]
  have hresult : add_aggregation g parent wrt oper ty =
      some ((((g.addNodeAttrs n d0).addEdge parent n e1).addEdge n wrt e2), n) := by
    unfold add_aggregation make_node
    rw [hwd, hpd]
    rfl
  have hinj := hresult.symm.trans hagg
  have hpair : (((g.addNodeAttrs n d0).addEdge parent n e1).addEdge n wrt e2, n) =
      ((g1, cp) : Graph × Label) := by
    injection hinj
  have hg1 : g1 = ((g.addNodeAttrs n d0).addEdge parent n e1).addEdge n wrt e2 :=
    ((Prod.mk.injEq _ _ _ _).mp hpair).1.symm
  have hcp : cp = n := ((Prod.mk.injEq _ _ _ _).mp hpair).2.symm
  refine ⟨wd, pd, rfl, rfl, hcp, ?_, ?_, ?_⟩
  · rw [hg1, hcp]
    rfl
  · rw [hg1, hcp, hg4nodes]
    rfl
  · rw [hg1, hcp, hg4edges, List.append_assoc]
    rfl

/-- C5: after `preserve_state_for_subqueries(graph, start, node)` returns
`(checkpoint, unwind)`, every edge that left the fork node beforehand is
distinct from the checkpoint edge and now leaves the unwind node with the
same attribute record while having disappeared from the fork node; every
`'wrt'` edge that pointed into the fork node now points into the unwind
node and no longer into the fork node; and the only outgoing edge the
fork node retains is the one to the checkpoint node.  (Hypotheses: the
graph is well-formed — identities below the node count, edge endpoints
present, edge keys unique — and the fork node has no self-loop.) -/
theorem preserve_state_reattaches {g g' : Graph} {start node checkpoint unwind : Label}
    (hB : NodesBounded g) (hV : EdgesValid g) (hK : EdgesNodup g)
    (hself : g.edgeData node node = none)
    (hrun : preserve_state_for_subqueries g start node = .ok (g', checkpoint, unwind)) :
    (∀ t d, g.edgeData node t = some d →
      t ≠ checkpoint ∧ g'.edgeData unwind t = some d ∧ g'.edgeData node t = none) ∧
    (∀ s d, g.edgeData s node = some d → d.getTy = "wrt" →
      g'.edgeData s unwind = some d ∧ g'.edgeData s node = none) ∧
    (∀ t d, g'.edgeData node t = some d → t = checkpoint) := by
  unfold preserve_state_for_subqueries at hrun
  split at hrun
  · cases hrun
  next path hsp =>
  split at hrun
  · cases hrun
  next anchor hfa =>
  split at hrun
  · cases hrun
  next g1 cp hagg =>
  split at hrun
  · cases hrun
  next nd hnd =>
  dsimp only at hrun
  split at hrun
  · cases hrun
  next g3 hm1 =>
  split at hrun
  · cases hrun
  next g4 hm2 =>
  have hpair : ((g4, cp, (make_node g1 (some cp) nd.subgraph [] "unwind" "unwind"
      "unwind").2) : Graph × Label × Label) = (g', checkpoint, unwind) := by
    injection hrun
  injection hpair with h1 h2
  injection h2 with h2 h3
  subst h1
  subst h2
  subst h3
  set unw := (make_node g1 (some cp) nd.subgraph [] "unwind" "unwind" "unwind").2
    with hunwdef
  set g2 := (make_node g1 (some cp) nd.subgraph [] "unwind" "unwind" "unwind").1
    with hg2def
  obtain ⟨wd, pd, hwd, hpd, hcpL, hg1comp, hg1nodes, hg1edges0⟩ :=
    add_aggregation_shape hB hV hagg
  obtain ⟨eA, eW, hg1e⟩ : ∃ eA eW,
      g1.edges = g.edges ++ [(node, cp, eA), (cp, anchor, eW)] := ⟨_, _, hg1edges0⟩
  have hNodeHas : g.hasNode node = true := Graph.hasNode_of_dataOf hpd
  have hAnchorHas : g.hasNode anchor = true := Graph.hasNode_of_dataOf hwd
  have hni : node.i < g.nodes.length := hB.index_lt_of_hasNode hNodeHas
  have hai : anchor.i < g.nodes.length := hB.index_lt_of_hasNode hAnchorHas
  have hcpI : cp.i = g.nodes.length := by rw [hcpL]
  have hg1nodesL : g1.nodes = g.nodes ++ [(⟨g.nodes.length, "collect()", wd.subgraph⟩,
      some ⟨wd.subgraph, pd.scalars ++ ["collect()"], "collect()", g.nodes.length⟩)] := by
    rw [← hcpL]
    exact hg1nodes
  have hB1 : NodesBounded g1 := NodesBounded_of_nodes_append_fresh hg1nodesL hB
  have hCpHas1 : g1.hasNode cp = true := Graph.hasNode_of_nodes_append_entry hg1nodes
  have hNodeHas1 : g1.hasNode node = true := Graph.hasNode_of_nodes_append hg1nodes hNodeHas
  have hAnchorHas1 : g1.hasNode anchor = true :=
    Graph.hasNode_of_nodes_append hg1nodes hAnchorHas
  have hV1 : EdgesValid g1 := by
    refine EdgesValid_of_append hg1nodes hg1edges0 hV ?_
    intro e he
    rcases List.mem_cons.mp he with h1 | h1
    · rw [h1]
      exact ⟨hNodeHas1, hCpHas1⟩
    · rcases List.mem_cons.mp h1 with h2 | h2
      · rw [h2]
        exact ⟨hCpHas1, hAnchorHas1⟩
      · cases h2
  have hK1 : EdgesNodup g1 := by
    rw [hg1comp]
    exact EdgesNodup_addEdge (EdgesNodup_addEdge (EdgesNodup_addNodeAttrs hK _ _) _ _ _) _ _ _
  have hmk := make_node_some_parent g1 cp nd.subgraph [] "unwind" "unwind" "unwind"
    hCpHas1 hB1 hV1
  have hunwL : unw = ⟨g1.nodes.length, "unwind", nd.subgraph⟩ := hmk.1
  have hg2nodes : g2.nodes = g1.nodes ++
      [(unw, some ⟨nd.subgraph, [], "unwind", g1.nodes.length⟩)] := by
    rw [hunwL]
    exact hmk.2.1
  have hg2e0 : g2.edges = g1.edges ++ [(cp, unw,
      ⟨some "unwind", some ("unwind" ++ "-" ++ "unwind"), some "unwind", none⟩)] := by
    rw [hunwL]
    exact hmk.2.2
  obtain ⟨eU, hg2e⟩ : ∃ eU, g2.edges = g1.edges ++ [(cp, unw, eU)] := ⟨_, hg2e0⟩
  have hg1len : g1.nodes.length = g.nodes.length + 1 := by
    rw [hg1nodes]
    simp
  have hunwI : unw.i = g.nodes.length + 1 := by
    rw [hunwL]
    exact hg1len
  have hUnwNeNode : unw ≠ node := Label.ne_of_ne_index (by omega)
  have hNodeNeUnw : node ≠ unw := Label.ne_of_ne_index (by omega)
  have hCpNeNode : cp ≠ node := Label.ne_of_ne_index (by omega)
  have hNodeNeCp : node ≠ cp := Label.ne_of_ne_index (by omega)
  have hCpNeUnw : cp ≠ unw := Label.ne_of_ne_index (by omega)
  have hAnchorNeUnw : anchor ≠ unw := Label.ne_of_ne_index (by omega)
  have hg2edgesFull : g2.edges = g.edges ++
      [(node, cp, eA), (cp, anchor, eW), (cp, unw, eU)] := by
    rw [hg2e, hg1e, List.append_assoc]
    rfl
  have hg2comp : g2 = (g1.addNodeAttrs unw ⟨nd.subgraph, [], "unwind",
      g1.nodes.length⟩).addEdge cp unw
      ⟨some "unwind", some ("unwind" ++ "-" ++ "unwind"), some "unwind", none⟩ := by
    rw [hunwL]
    rfl
  have hK2 : EdgesNodup g2 := by
    rw [hg2comp]
    exact EdgesNodup_addEdge (EdgesNodup_addNodeAttrs hK1 _ _) _ _ _
  have hgSrc : ∀ e ∈ g.edges, e.1.i < g.nodes.length :=
    fun e he => hB.index_lt_of_hasNode (hV e he).1
  have hgTgt : ∀ e ∈ g.edges, e.2.1.i < g.nodes.length :=
    fun e he => hB.index_lt_of_hasNode (hV e he).2
  have hOLfilter : g2.outEdges node = g2.edges.filter (fun e => e.1 = node) := rfl
  have hOLmem : ∀ e ∈ g2.outEdges node, e ∈ g2.edges ∧ e.1 = node := by
    intro e he
    rw [hOLfilter] at he
    have h2 := List.mem_filter.mp he
    exact ⟨h2.1, by simpa using h2.2⟩
  have hOLdata : ∀ e ∈ g2.outEdges node, g2.edgeData node e.2.1 = some e.2.2 := by
    intro e he
    obtain ⟨hm, hsrc⟩ := hOLmem e he
    obtain ⟨s, t, dd⟩ := e
    dsimp only at hsrc ⊢
    rw [hsrc] at hm
    exact Graph.edgeData_of_mem_nodup hK2 hm
  have hOLpw : (g2.outEdges node).Pairwise
      (fun e1 e2 => (e1.1, e1.2.1) ≠ (e2.1, e2.2.1)) := by
    rw [hOLfilter]
    exact edges_filter_pairwise hK2 _
  have hOLnodup : ((g2.outEdges node).map (fun e => e.2.1)).Nodup :=
    keys_pairwise_targets_nodup _ hOLpw (fun e he => (hOLmem e he).2)
  have hOLneUnw : ∀ e ∈ g2.outEdges node, e.2.1 ≠ unw := by
    intro e he
    obtain ⟨hm, hsrc⟩ := hOLmem e he
    rw [hg2edgesFull] at hm
    rcases List.mem_append.mp hm with hmA | hmA
    · have := hgTgt e hmA
      exact Label.ne_of_ne_index (by omega)
    · rcases List.mem_cons.mp hmA with h1 | h1
      · rw [h1]
        exact hCpNeUnw
      · rcases List.mem_cons.mp h1 with h2 | h2
        · rw [h2]
          exact hAnchorNeUnw
        · rw [List.mem_singleton.mp h2] at hsrc
          exact absurd hsrc hCpNeNode
  have hOLwout : ∀ e ∈ g2.outEdges node, g2.edgeData unw e.2.1 = none := by
    intro e he
    apply Graph.edgeData_eq_none
    intro e1 he1
    rw [hg2edgesFull] at he1
    rintro ⟨h1, _⟩
    rcases List.mem_append.mp he1 with hmA | hmA
    · have := hgSrc e1 hmA
      exact Label.ne_of_ne_index (show e1.1.i ≠ unw.i by omega) h1
    · rcases List.mem_cons.mp hmA with h2 | h2
      · rw [h2] at h1
        exact hNodeNeUnw h1
      · rcases List.mem_cons.mp h2 with h3 | h3
        · rw [h3] at h1
          exact hCpNeUnw h1
        · rw [List.mem_singleton.mp h3] at h1
          exact hCpNeUnw h1
  obtain ⟨h3x, hrun3, hc1, hc3, hc4, hc5⟩ := @moveOutEdges_spec cp unw node hUnwNeNode
    (g2.outEdges node) g2 hOLdata hOLnodup hOLneUnw hOLwout
  have hg3x : h3x = g3 := by
    have hx := hrun3.symm.trans hm1
    injection hx
  rw [hg3x] at hc1 hc3 hc4 hc5
  have hK3 : EdgesNodup g3 := EdgesNodup_moveOutEdges _ _ _ hm1 hK2
  have hOLneNode : ∀ e ∈ g2.outEdges node, e.2.1 ≠ node := by
    intro e he
    obtain ⟨hm, hsrc⟩ := hOLmem e he
    rw [hg2edgesFull] at hm
    rcases List.mem_append.mp hm with hmA | hmA
    · intro ht
      obtain ⟨s, t, dd⟩ := e
      dsimp only at hsrc ht
      rw [hsrc, ht] at hmA
      have hcontra := Graph.edgeData_of_mem_nodup hK hmA
      rw [hself] at hcontra
      cases hcontra
    · rcases List.mem_cons.mp hmA with h1 | h1
      · rw [h1]
        exact hCpNeNode
      · rcases List.mem_cons.mp h1 with h2 | h2
        · rw [h2] at hsrc
          exact absurd hsrc hCpNeNode
        · rw [List.mem_singleton.mp h2] at hsrc
          exact absurd hsrc hCpNeNode
  have hg3NodeNode : g3.edgeData node node = none := by
    rw [hc4 node (Or.inr hOLneNode)]
    refine Graph.edgeData_append_none hg2edgesFull hself ?_
    intro e he
    rintro ⟨h1, h2⟩
    rcases List.mem_cons.mp he with hx | hx
    · rw [hx] at h2
      exact hCpNeNode h2
    · rcases List.mem_cons.mp hx with hy | hy
      · rw [hy] at h1
        exact hCpNeNode h1
      · rw [List.mem_singleton.mp hy] at h1
        exact hCpNeNode h1
  have hg3UnwNode : g3.edgeData unw node = none := by
    rw [hc5 node hOLneNode]
    apply Graph.edgeData_eq_none
    intro e he
    rw [hg2edgesFull] at he
    rintro ⟨h1, _⟩
    rcases List.mem_append.mp he with hmA | hmA
    · have := hgSrc e hmA
      exact Label.ne_of_ne_index (show e.1.i ≠ unw.i by omega) h1
    · rcases List.mem_cons.mp hmA with h2 | h2
      · rw [h2] at h1
        exact hNodeNeUnw h1
      · rcases List.mem_cons.mp h2 with h3 | h3
        · rw [h3] at h1
          exact hCpNeUnw h1
        · rw [List.mem_singleton.mp h3] at h1
          exact hCpNeUnw h1
  have hMfilter : (wrtView g3).inEdges node =
      (g3.edges.filter (fun e => e.2.2.getTy = "wrt")).filter (fun e => e.2.1 = node) := rfl
  have hMsub : List.Sublist ((wrtView g3).inEdges node) g3.edges := by
    rw [hMfilter]
    exact (List.filter_sublist _).trans (List.filter_sublist _)
  have hMmem : ∀ e ∈ (wrtView g3).inEdges node,
      e ∈ g3.edges ∧ e.2.2.getTy = "wrt" ∧ e.2.1 = node := by
    intro e he
    rw [hMfilter] at he
    have h2 := List.mem_filter.mp he
    have h3 := List.mem_filter.mp h2.1
    exact ⟨h3.1, by simpa using h3.2, by simpa using h2.2⟩
  have hMdata : ∀ e ∈ (wrtView g3).inEdges node, g3.edgeData e.1 node = some e.2.2 := by
    intro e he
    obtain ⟨hm, _, htgt⟩ := hMmem e he
    obtain ⟨s, t, dd⟩ := e
    dsimp only at htgt ⊢
    rw [htgt] at hm
    exact Graph.edgeData_of_mem_nodup hK3 hm
  have hMnodup : (((wrtView g3).inEdges node).map (fun e => e.1)).Nodup :=
    keys_pairwise_sources_nodup _ (List.Pairwise.sublist hMsub hK3)
      (fun e he => (hMmem e he).2.2)
  have hMneNode : ∀ e ∈ (wrtView g3).inEdges node, e.1 ≠ node := by
    intro e he hc
    have hx := hMdata e he
    rw [hc, hg3NodeNode] at hx
    cases hx
  have hMneUnw : ∀ e ∈ (wrtView g3).inEdges node, e.1 ≠ unw := by
    intro e he hc
    have hx := hMdata e he
    rw [hc, hg3UnwNode] at hx
    cases hx
  obtain ⟨h4x, hrun4, hw1, hw2, hw3⟩ := @moveWrtInEdges_spec unw node hNodeNeUnw
    ((wrtView g3).inEdges node) g3 hMdata hMnodup
  have hg4x : h4x = g4 := by
    have hx := hrun4.symm.trans hm2
    injection hx
  rw [hg4x] at hw1 hw2 hw3
  refine ⟨?_, ?_, ?_⟩
  · intro t d hd
    have hmemg := Graph.mem_of_edgeData hd
    have hti : t.i < g.nodes.length := hB.index_lt_of_hasNode (hV _ hmemg).2
    have htCp : t ≠ cp := Label.ne_of_ne_index (by omega)
    have hg2d : g2.edgeData node t = some d := Graph.edgeData_append_left hg2edgesFull hd
    have hmem2 : (node, t, d) ∈ g2.edges := Graph.mem_of_edgeData hg2d
    have hOLm : (node, t, d) ∈ g2.outEdges node := by
      rw [hOLfilter]
      exact List.mem_filter.mpr ⟨hmem2, by simp⟩
    have hres := hc1 (node, t, d) hOLm htCp
    refine ⟨htCp, ?_, ?_⟩
    · rw [hw3 unw t hMneUnw]
      exact hres.1
    · rw [hw3 node t hMneNode]
      exact hres.2
  · intro s d hd hty
    have hmemg := Graph.mem_of_edgeData hd
    have hsi : s.i < g.nodes.length := hB.index_lt_of_hasNode (hV _ hmemg).1
    have hsNeNode : s ≠ node := by
      intro hc
      rw [hc, hself] at hd
      cases hd
    have hsNeUnw : s ≠ unw := Label.ne_of_ne_index (by omega)
    have hsNeCp : s ≠ cp := Label.ne_of_ne_index (by omega)
    have hg2d : g2.edgeData s node = some d := Graph.edgeData_append_left hg2edgesFull hd
    have hg3d : g3.edgeData s node = some d := by
      rw [hc3 s node hsNeNode hsNeUnw]
      exact hg2d
    have hmem3 : (s, node, d) ∈ g3.edges := Graph.mem_of_edgeData hg3d
    have hMm : (s, node, d) ∈ (wrtView g3).inEdges node := by
      rw [hMfilter]
      exact List.mem_filter.mpr ⟨List.mem_filter.mpr ⟨hmem3, by simpa using hty⟩, by simp⟩
    have hg3sUnw : g3.edgeData s unw = none := by
      rw [hc3 s unw hsNeNode hsNeUnw]
      refine Graph.edgeData_append_none hg2edgesFull ?_ ?_
      · apply Graph.edgeData_eq_none
        intro e he
        rintro ⟨_, h2⟩
        have := hgTgt e he
        exact Label.ne_of_ne_index (show e.2.1.i ≠ unw.i by omega) h2
      · intro e he
        rintro ⟨h1, h2⟩
        rcases List.mem_cons.mp he with hx | hx
        · rw [hx] at h2
          exact hCpNeUnw h2
        · rcases List.mem_cons.mp hx with hy | hy
          · rw [hy] at h2
            exact hAnchorNeUnw h2
          · rw [List.mem_singleton.mp hy] at h1
            exact hsNeCp h1.symm
    exact ⟨hw1 (s, node, d) hMm hg3sUnw, hw2 (s, node, d) hMm⟩
  · intro t d hd
    by_cases htc : t = cp
    · exact htc
    · exfalso
      rw [hw3 node t hMneNode] at hd
      by_cases hT : ∀ e ∈ g2.outEdges node, e.2.1 ≠ t
      · rw [hc4 t (Or.inr hT)] at hd
        have hmem2 := Graph.mem_of_edgeData hd
        have hOLm : (node, t, d) ∈ g2.outEdges node := by
          rw [hOLfilter]
          exact List.mem_filter.mpr ⟨hmem2, by simp⟩
        exact hT _ hOLm rfl
      · push_neg at hT
        obtain ⟨e, he, het⟩ := hT
        have hcp2 : e.2.1 ≠ cp := by
          rw [het]
          exact htc
        have hzero := (hc1 e he hcp2).2
        rw [het] at hzero
        rw [hzero] at hd
        cases hd

/-- C5 (witness): the re-attachment theorem evaluated on the pure chain
`data → OB → run`, checkpointing the OB node: the OB node's outgoing
traversal edge moves to the unwind node, the chain has no incoming
`'wrt'` edge to move, and OB keeps only the checkpoint edge. -/
theorem preserve_state_reattaches_witness :
    (∀ t d, purechain.1.edgeData chainOB.2 t = some d →
      t ≠ presTriple.2.1 ∧ presTriple.1.edgeData presTriple.2.2 t = some d ∧
      presTriple.1.edgeData chainOB.2 t = none) ∧
    (∀ s d, purechain.1.edgeData s chainOB.2 = some d → d.getTy = "wrt" →
      presTriple.1.edgeData s presTriple.2.2 = some d ∧
      presTriple.1.edgeData s chainOB.2 = none) ∧
    (∀ t d, presTriple.1.edgeData chainOB.2 t = some d → t = presTriple.2.1) :=
  @preserve_state_reattaches purechain.1 presTriple.1 QueryGraph.fresh.2 chainOB.2
    presTriple.2.1 presTriple.2.2 (by decide) (by decide) (by decide) (by decide)
    (by decide)
